import Mathlib

/-!
# Death First Search, episode 1: the graph, the search and the cut policy

A shallow embedding of `src/main.go`.

Representation.  The Go program only ever builds nodes in `buildMap`, which
stores the node with `index = i` at position `i` of `GameMap.nodes`, and never
reassigns `index`.  A `*Node` is therefore represented by the `index` of the
node it points to (an `Int`, as in Go), and a mutation through such a pointer
is an update of the node table at that position.  A Go slice is a `List`; the
nil slice is `[]`.  Indexing a slice out of range is a run-time panic, which
the model reports as `Fault.indexOutOfRange`.  The two unbounded `for` loops of
`getShortestPath` are run with an iteration budget; running out of it is
reported as `Fault.fuelExhausted`, a result the theorems show does not occur.
The numbers `buildMap` and `main` read from the input are arguments, and so
is the order in which `getBobnetPath` receives the results of the searches it
starts, an arrangement of the exits that the theorems quantify over.
-/

namespace DeathFirstSearch

deriving instance DecidableEq for Except

/-! ## Slices -/

/-- Failures of a run: a Go run-time panic on an index out of range, or the
iteration budget of a modelled loop running out. -/
inductive Fault where
  | indexOutOfRange
  | fuelExhausted
  deriving DecidableEq, Repr

/-- Read `xs[i]` for a Go `int` index: `none` when `i` is out of range. -/
def getAt {α : Type} (xs : List α) (i : Int) : Option α :=
  if i < 0 then none else xs[i.toNat]?

/-- Write `xs[i] = v` for a Go `int` index (the list is unchanged when `i` is
out of range; every write of the program follows a read at the same index). -/
def setAt {α : Type} (xs : List α) (i : Int) (v : α) : List α :=
  if i < 0 then xs else xs.set i.toNat v

/-- Update the element at position `i` through `f`, when there is one. -/
def modifyAt {α : Type} (xs : List α) (i : Int) (f : α → α) : List α :=
  match getAt xs i with
  | some a => setAt xs i (f a)
  | none => xs

/-! ## MAP -/

/-- Go `type Node struct`; `links` holds, for each `*Node`, the index of the
node pointed to. -/
structure Node where
  index : Int
  isBobnetAgentPresent : Bool
  isExit : Bool
  links : List Int
  deriving DecidableEq, Repr

/-- Go `type Link struct`: two node pointers, each given by its node's index. -/
structure Link where
  node1 : Int
  node2 : Int
  deriving DecidableEq, Repr

/-- Go `type GameMap struct`. -/
structure GameMap where
  bobnetAgentIndex : Int
  exits : List Int
  links : List Link
  nodes : List Node
  deriving DecidableEq, Repr

/-- The position of the first element satisfying `p`, as found by the Go loops
`for i, x := range xs { if p(x) { idx = i; break } }`; `none` stands for `-1`. -/
def firstIndex {α : Type} (p : α → Bool) : List α → Option Nat
  | [] => none
  | x :: xs => if p x then some 0 else (firstIndex p xs).map (· + 1)

/-- The removal idiom shared by `Node.removeLink` and `GameMap.removeLink`:
a one-element slice becomes empty; otherwise the element at `i` is swapped
with the first one and the slice is re-sliced from position 1. -/
def swapRemove {α : Type} (xs : List α) (i : Nat) : List α :=
  if xs.length = 1 then []
  else
    match xs[0]?, xs[i]? with
    | some tmp, some xi => ((xs.set 0 xi).set i tmp).drop 1
    | _, _ => xs

/-- Go `func (node *Node) removeLink(linkedNode *Node)` on the node value. -/
def Node.removeLink (node : Node) (linkedNode : Int) : Node :=
  match firstIndex (fun n => n == linkedNode) node.links with
  | none => node
  | some linkedNodeIndex => { node with links := swapRemove node.links linkedNodeIndex }

/-- The test of `GameMap.removeLink` and `getLinkToCutFromPath` on an entry `l`
of the edge list against the indices `i1`, `i2`. -/
def Link.joins (l : Link) (i1 i2 : Int) : Bool :=
  (l.node1 == i1 || l.node1 == i2) && (l.node2 == i1 || l.node2 == i2)

/-- Go `func (gameMap *GameMap) SetBobnetAgentIndex(index int)`. -/
def GameMap.SetBobnetAgentIndex (gameMap : GameMap) (index : Int) : GameMap :=
  let nbNodes : Int := gameMap.nodes.length
  let nodes :=
    if gameMap.bobnetAgentIndex ≥ 0 ∧ gameMap.bobnetAgentIndex < nbNodes then
      modifyAt gameMap.nodes gameMap.bobnetAgentIndex
        (fun n => { n with isBobnetAgentPresent := false })
    else gameMap.nodes
  if index ≥ 0 ∧ index < nbNodes then
    { gameMap with
      bobnetAgentIndex := index
      nodes := modifyAt nodes index (fun n => { n with isBobnetAgentPresent := true }) }
  else
    { gameMap with bobnetAgentIndex := -1, nodes := nodes }

/-- Go `func (gameMap *GameMap) removeLink(link *Link)`. -/
def GameMap.removeLink (gameMap : GameMap) (link : Link) : GameMap :=
  let nodes := modifyAt gameMap.nodes link.node1 (fun n => n.removeLink link.node2)
  let nodes := modifyAt nodes link.node2 (fun n => n.removeLink link.node1)
  match firstIndex (fun l => l.joins link.node1 link.node2) gameMap.links with
  | none => { gameMap with nodes := nodes }
  | some linkIndex =>
    { gameMap with nodes := nodes, links := swapRemove gameMap.links linkIndex }

/-- One iteration of the link loop of `buildMap` for the pair of indices read:
the link is appended to the edge list and each node to the other's adjacency
list.  Indexing `nodes` out of range is a panic. -/
def buildMap.addLink (st : List Node × List Link) (nodeIndex1 nodeIndex2 : Int) :
    Except Fault (List Node × List Link) :=
  match getAt st.1 nodeIndex1, getAt st.1 nodeIndex2 with
  | some _, some _ =>
    let nodes := modifyAt st.1 nodeIndex1 (fun n => { n with links := n.links ++ [nodeIndex2] })
    let nodes := modifyAt nodes nodeIndex2 (fun n => { n with links := n.links ++ [nodeIndex1] })
    .ok (nodes, st.2 ++ [{ node1 := nodeIndex1, node2 := nodeIndex2 }])
  | _, _ => .error .indexOutOfRange

/-- The link loop of `buildMap` over the pairs of indices read. -/
def buildMap.addLinks : List Node × List Link → List (Int × Int) →
    Except Fault (List Node × List Link)
  | st, [] => .ok st
  | st, (nodeIndex1, nodeIndex2) :: rest =>
    match buildMap.addLink st nodeIndex1 nodeIndex2 with
    | .error e => .error e
    | .ok st => buildMap.addLinks st rest

/-- The exit loop of `buildMap` over the exit indices read: the exit list and
the node table with the exit flags set. -/
def buildMap.addExits : List Node × List Int → List Int → Except Fault (List Node × List Int)
  | st, [] => .ok st
  | st, exitNodeIndex :: rest =>
    match getAt st.1 exitNodeIndex with
    | none => .error .indexOutOfRange
    | some _ =>
      buildMap.addExits
        (modifyAt st.1 exitNodeIndex (fun n => { n with isExit := true }),
          st.2 ++ [exitNodeIndex]) rest

/-- Go `func buildMap() *GameMap` on the numbers read from the input: the node
count, the pairs of node indices of the links and the exit indices. -/
def buildMap (nbNodes : Nat) (linkInput : List (Int × Int)) (exitInput : List Int) :
    Except Fault GameMap :=
  let nodes : List Node :=
    (List.range nbNodes).map
      (fun i => { index := (i : Int), isBobnetAgentPresent := false, isExit := false, links := [] })
  match buildMap.addLinks (nodes, []) linkInput with
  | .error e => .error e
  | .ok (nodes, links) =>
    match buildMap.addExits (nodes, []) exitInput with
    | .error e => .error e
    | .ok (nodes, exits) =>
      .ok { bobnetAgentIndex := -1, exits := exits, links := links, nodes := nodes }

/-! ## SHORTEST PATH -/

/-- The inner loop of `getShortestPath` over `currentNode.links`, on the pair
`(parentIndex, queue)`. -/
def scanLinks (startIndex currentIndex : Int) :
    List Int → List Int × List Int → Except Fault (List Int × List Int)
  | [], st => .ok st
  | linkedNode :: rest, (parentIndex, queue) =>
    if linkedNode ≠ startIndex then
      match getAt parentIndex linkedNode with
      | none => .error .indexOutOfRange
      | some p =>
        if p = -1 then
          scanLinks startIndex currentIndex rest
            (setAt parentIndex linkedNode currentIndex, queue ++ [linkedNode])
        else scanLinks startIndex currentIndex rest (parentIndex, queue)
    else scanLinks startIndex currentIndex rest (parentIndex, queue)

/-- The search loop `for { ... }` of `getShortestPath`; the result is the
parent table when the loop breaks.  The first argument bounds the number of
iterations. -/
def searchLoop (gameMap : GameMap) (startIndex endIndex : Int) :
    Nat → List Int → List Int → Except Fault (List Int)
  | 0, _, _ => .error .fuelExhausted
  | fuel + 1, parentIndex, queue =>
    match queue with
    | [] => .error .indexOutOfRange
    | currentIndex :: queue =>
      match getAt gameMap.nodes currentIndex with
      | none => .error .indexOutOfRange
      | some currentNode =>
        match scanLinks startIndex currentIndex currentNode.links (parentIndex, queue) with
        | .error e => .error e
        | .ok (parentIndex, queue) =>
          if queue.length = 0 then .ok parentIndex
          else
            match getAt parentIndex endIndex with
            | none => .error .indexOutOfRange
            | some p =>
              if p ≠ -1 then .ok parentIndex
              else searchLoop gameMap startIndex endIndex fuel parentIndex queue

/-- The loop `for parentIndex[currentParentIndex] != -1 { ... }` that prepends
the nodes met on the way back from the end node. -/
def buildPath (parentIndex : List Int) : Nat → Int → List Int → Except Fault (List Int)
  | 0, _, _ => .error .fuelExhausted
  | fuel + 1, currentParentIndex, path =>
    match getAt parentIndex currentParentIndex with
    | none => .error .indexOutOfRange
    | some p =>
      if p ≠ -1 then buildPath parentIndex fuel p (currentParentIndex :: path)
      else .ok path

/-- Go `func getShortestPath(gameMap *GameMap, startIndex int, endIndex int) []int`. -/
def getShortestPath (gameMap : GameMap) (startIndex endIndex : Int) :
    Except Fault (List Int) :=
  if startIndex = endIndex then .ok []
  else
    let nbNodes := gameMap.nodes.length
    let parentIndex := List.replicate nbNodes (-1 : Int)
    match searchLoop gameMap startIndex endIndex (nbNodes + 1) parentIndex [startIndex] with
    | .error e => .error e
    | .ok parentIndex =>
      match getAt parentIndex endIndex with
      | none => .error .indexOutOfRange
      | some p =>
        if p = -1 then .ok []
        else
          match buildPath parentIndex (nbNodes + 1) endIndex [] with
          | .error e => .error e
          | .ok path => .ok (startIndex :: path)

/-- The results of the searches started by `getBobnetPath`, one for each entry
of `arrival` (the exits in the order in which their results are received). -/
def exitPaths (gameMap : GameMap) : List Int → Except Fault (List (List Int))
  | [] => .ok []
  | exitIndex :: rest =>
    match getShortestPath gameMap gameMap.bobnetAgentIndex exitIndex with
    | .error e => .error e
    | .ok p =>
      match exitPaths gameMap rest with
      | .error e => .error e
      | .ok ps => .ok (p :: ps)

/-- The receiving loop of `getBobnetPath` on the paths in the order received;
`none` is the nil `path`. -/
def collectPaths : Option (List Int) → List (List Int) → Option (List Int)
  | path, [] => path
  | path, pathToExit :: rest =>
    if pathToExit.length = 0 then collectPaths path rest
    else
      match path with
      | none => collectPaths (some pathToExit) rest
      | some cur =>
        if pathToExit.length < cur.length then collectPaths (some pathToExit) rest
        else collectPaths path rest

/-- Go `func getBobnetPath(gameMap *GameMap) ([]int, error)`.  One search is
started for each exit and the results are read from the channel in the order
`arrival`, an arrangement of `gameMap.exits` chosen by the scheduler.  A panic
in a search ends the program.  The nil path is returned as `[]`. -/
def getBobnetPath (gameMap : Option GameMap) (arrival : List Int) :
    Except Fault (Except String (List Int)) :=
  match gameMap with
  | none => .ok (.error "game map is missing")
  | some gameMap =>
    match exitPaths gameMap arrival with
    | .error e => .error e
    | .ok paths => .ok (.ok ((collectPaths none paths).getD []))

/-! ## LINK TO CUT -/

/-- The loop `for len(currentPath) > 1 { ... }` of `getLinkToCutFromPath`.  The
first argument bounds the number of iterations. -/
def cutLoop (links : List Link) : Nat → List Int → Except String Link
  | 0, _ => .error "cannot get a link to cut from the path"
  | fuel + 1, currentPath =>
    let pathLenght := currentPath.length
    if pathLenght > 1 then
      match currentPath[pathLenght - 1]?, currentPath[pathLenght - 2]? with
      | some index1, some index2 =>
        match links.find? (fun link => link.joins index1 index2) with
        | some link => .ok link
        | none => cutLoop links fuel (currentPath.take (pathLenght - 2))
      | _, _ => .error "cannot get a link to cut from the path"
    else .error "cannot get a link to cut from the path"

/-- Go `func getLinkToCutFromPath(links []*Link, path []int) (*Link, error)`.
Each iteration shortens `currentPath` by two, so `len(path)` iterations are
never used up. -/
def getLinkToCutFromPath (links : List Link) (path : List Int) : Except String Link :=
  if path.length < 2 then
    .error "cannot get a link to cut, the path has less than 2 indexes"
  else cutLoop links path.length path

/-- Go `func getLinkToCutFromNode(node *Node) (*Link, error)`; `none` is the
nil node. -/
def getLinkToCutFromNode (node : Option Node) : Except String Link :=
  match node with
  | none => .error "cannot get a link to cut, the node has no links"
  | some node =>
    match node.links with
    | [] => .error "cannot get a link to cut, the node has no links"
    | first :: _ => .ok { node1 := node.index, node2 := first }

/-! ## OUTPUTS -/

/-- Go `func cutLink(gameMap *GameMap, link *Link)`: the map after the removal
and the two indices printed. -/
def cutLink (gameMap : GameMap) (link : Link) : GameMap × (Int × Int) :=
  (gameMap.removeLink link, (link.node1, link.node2))

/-! ## MAIN -/

/-- The choice of the link to cut in one round of `main`, once the agent index
has been set: the primary policy on the path of `getBobnetPath`, else the
fallback on the agent's node.  `none` is a round that ends with `continue`;
reading `gameMap.nodes[gameMap.bobnetAgentIndex]` out of range is a panic. -/
def selectLink (gameMap : GameMap) (arrival : List Int) : Except Fault (Option Link) :=
  match getBobnetPath (some gameMap) arrival with
  | .error e => .error e
  | .ok (.error _) => .ok none
  | .ok (.ok bobnetPath) =>
    match getLinkToCutFromPath gameMap.links bobnetPath with
    | .ok linkToCut => .ok (some linkToCut)
    | .error _ =>
      match getAt gameMap.nodes gameMap.bobnetAgentIndex with
      | none => .error .indexOutOfRange
      | some node =>
        match getLinkToCutFromNode (some node) with
        | .ok linkToCut => .ok (some linkToCut)
        | .error _ => .ok none

/-- One round of the loop of `main` for the agent index read from the input:
the map at the end of the round and the line printed, if any. -/
def playRound (gameMap : GameMap) (bobnetAgentIndex : Int) (arrival : List Int) :
    Except Fault (GameMap × Option (Int × Int)) :=
  let gameMap := gameMap.SetBobnetAgentIndex bobnetAgentIndex
  match selectLink gameMap arrival with
  | .error e => .error e
  | .ok none => .ok (gameMap, none)
  | .ok (some linkToCut) =>
    let out := cutLink gameMap linkToCut
    .ok (out.1, some out.2)

/-! ## Graph vocabulary of the specification -/

/-- The adjacency list of node `u`; empty when `u` is not a position of the
node table. -/
def GameMap.adj (g : GameMap) (u : Int) : List Int :=
  match getAt g.nodes u with
  | some n => n.links
  | none => []

/-- Index `i` is a position of the node table. -/
def ValidIndex (g : GameMap) (i : Int) : Prop := 0 ≤ i ∧ i < g.nodes.length

instance (g : GameMap) (i : Int) : Decidable (ValidIndex g i) := by
  unfold ValidIndex; infer_instance

/-- The node table holds node `i` at position `i`, and every adjacency entry
is a valid node index. -/
def WellFormed (g : GameMap) : Prop :=
  (∀ i : Fin g.nodes.length, (g.nodes.get i).index = ((i.val : Nat) : Int)) ∧
    ∀ n ∈ g.nodes, ∀ l ∈ n.links, ValidIndex g l

instance (g : GameMap) : Decidable (WellFormed g) := by
  unfold WellFormed; infer_instance

/-- Every consecutive pair `(u, v)` of `w` has `v` in the adjacency list of `u`. -/
def IsWalk (g : GameMap) : List Int → Prop
  | [] => True
  | [_] => True
  | u :: v :: rest => v ∈ g.adj u ∧ IsWalk g (v :: rest)

/-- Whether a sequence is a walk can be computed. -/
def IsWalk.decidable (g : GameMap) : (w : List Int) → Decidable (IsWalk g w)
  | [] => isTrue trivial
  | [_] => isTrue trivial
  | u :: v :: rest =>
    have := IsWalk.decidable g (v :: rest)
    inferInstanceAs (Decidable (v ∈ g.adj u ∧ IsWalk g (v :: rest)))

instance (g : GameMap) (w : List Int) : Decidable (IsWalk g w) := IsWalk.decidable g w

/-- The sequence `w` is a walk along adjacency lists whose first element is `s`
and whose last element is `e`. -/
def WalkFromTo (g : GameMap) (s e : Int) (w : List Int) : Prop :=
  w.head? = some s ∧ w.getLast? = some e ∧ IsWalk g w

instance (g : GameMap) (s e : Int) (w : List Int) : Decidable (WalkFromTo g s e w) := by
  unfold WalkFromTo; infer_instance

/-- Node `e` is reachable from `s` through adjacency lists. -/
def Reachable (g : GameMap) (s e : Int) : Prop := ∃ w, WalkFromTo g s e w

/-- Node `v` has been discovered by the search from `s`: it is the start node
or its parent entry is set. -/
def Visited (parentIndex : List Int) (s v : Int) : Prop :=
  v = s ∨ ∃ p, getAt parentIndex v = some p ∧ p ≠ -1

/-- The facts about the parent table and the queue that hold throughout the
search from `s`, with `d` the depth at which each node was discovered. -/
structure SearchInv (g : GameMap) (s : Int) (parentIndex queue : List Int)
    (d : Int → Nat) : Prop where
  len : parentIndex.length = g.nodes.length
  start_unset : getAt parentIndex s = some (-1)
  d_start : d s = 0
  par : ∀ v p, getAt parentIndex v = some p → p ≠ -1 →
    v ≠ s ∧ Visited parentIndex s p ∧ v ∈ g.adj p ∧ d v = d p + 1
  queue_vis : ∀ x ∈ queue, Visited parentIndex s x
  sorted : queue.Pairwise (fun x y => d x ≤ d y)
  depth_bound : ∀ v, Visited parentIndex s v →
    d v + parentIndex.count (-1) ≤ g.nodes.length

/-- The invariant at the head of the search loop. -/
structure HeadInv (g : GameMap) (s : Int) (parentIndex queue : List Int)
    (d : Int → Nat) extends SearchInv g s parentIndex queue d : Prop where
  near : ∀ v, Visited parentIndex s v → ∀ x ∈ queue, d v ≤ d x + 1
  closed : ∀ u, Visited parentIndex s u → u ∉ queue →
    ∀ w ∈ g.adj u, Visited parentIndex s w ∧ d w ≤ d u + 1

/-- The invariant inside the loop over the links of the node `cur` taken from
the queue, after the links `done` have been looked at. -/
structure ScanInv (g : GameMap) (s cur : Int) (done parentIndex queue : List Int)
    (d : Int → Nat) extends SearchInv g s parentIndex queue d : Prop where
  cur_vis : Visited parentIndex s cur
  cur_min : ∀ x ∈ queue, d cur ≤ d x
  near_cur : ∀ v, Visited parentIndex s v → d v ≤ d cur + 1
  closed : ∀ u, Visited parentIndex s u → u ∉ queue → u ≠ cur →
    ∀ w ∈ g.adj u, Visited parentIndex s w ∧ d w ≤ d u + 1
  cur_done : ∀ w ∈ done, Visited parentIndex s w ∧ d w ≤ d cur + 1

/-! ## Concrete maps -/

/-- The map of scenario A as `buildMap` builds it from 4 nodes, the links
(0,1), (1,2), (2,3) and the exit 3, with the agent set at node 0. -/
def scenarioA : GameMap :=
  { bobnetAgentIndex := 0
    exits := [3]
    links := [⟨0, 1⟩, ⟨1, 2⟩, ⟨2, 3⟩]
    nodes :=
      [ ⟨0, true, false, [1]⟩, ⟨1, false, false, [0, 2]⟩,
        ⟨2, false, false, [1, 3]⟩, ⟨3, false, true, [2]⟩ ] }

/-- Three nodes in a line, 0 - 1 - 2, with exits 0 and 2 and the agent on the
exit 0. -/
def agentOnExit : GameMap :=
  { bobnetAgentIndex := 0
    exits := [0, 2]
    links := [⟨0, 1⟩, ⟨1, 2⟩]
    nodes := [⟨0, true, true, [1]⟩, ⟨1, false, false, [0, 2]⟩, ⟨2, false, true, [1]⟩] }

/-- Two linked nodes, 0 - 1, whose only exit is node 0, with the agent on it. -/
def agentOnSoleExit : GameMap :=
  { bobnetAgentIndex := 0
    exits := [0]
    links := [⟨0, 1⟩]
    nodes := [⟨0, true, true, [1]⟩, ⟨1, false, false, [0]⟩] }

/-- Two nodes and the single link (0,0), as `buildMap` builds them: node 0
lists itself twice. -/
def selfLoopMap : GameMap :=
  { bobnetAgentIndex := -1
    exits := []
    links := [⟨0, 0⟩]
    nodes := [⟨0, false, false, [0, 0]⟩, ⟨1, false, false, []⟩] }

/-- Two nodes that list each other while the edge list is empty. -/
def staleAdjacency : GameMap :=
  { bobnetAgentIndex := -1
    exits := []
    links := []
    nodes := [⟨0, false, false, [1]⟩, ⟨1, false, false, [0]⟩] }

/-- Scenario C: the agent on node 0, which has no link; the exit 2 is linked
to node 1 only. -/
def isolatedAgent : GameMap :=
  { bobnetAgentIndex := 0
    exits := [2]
    links := [⟨1, 2⟩]
    nodes := [⟨0, true, false, []⟩, ⟨1, false, false, [2]⟩, ⟨2, false, true, [1]⟩] }

/-! ## Consistency of the two representations of the edges -/

/-- The entry `l` of the edge list connects the unordered pair `{a, b}`. -/
def Link.connects (l : Link) (a b : Int) : Prop :=
  (l.node1 = a ∧ l.node2 = b) ∨ (l.node1 = b ∧ l.node2 = a)

instance (l : Link) (a b : Int) : Decidable (l.connects a b) := by
  unfold Link.connects; infer_instance

/-- No entry of the edge list joins a node to itself and no node lists itself
as a neighbour. -/
def NoSelfLoops (g : GameMap) : Prop :=
  (∀ l ∈ g.links, l.node1 ≠ l.node2) ∧
    ∀ i : Fin g.nodes.length, ((i.val : Nat) : Int) ∉ g.adj i.val

instance (g : GameMap) : Decidable (NoSelfLoops g) := by
  unfold NoSelfLoops; infer_instance

/-- No two entries of the edge list connect the same unordered pair and no
adjacency list holds a neighbour twice. -/
def NoDuplicateEdges (g : GameMap) : Prop :=
  g.links.Pairwise (fun l m => ¬ m.connects l.node1 l.node2) ∧
    ∀ i : Fin g.nodes.length, (g.adj i.val).Nodup

instance (g : GameMap) : Decidable (NoDuplicateEdges g) := by
  unfold NoDuplicateEdges; infer_instance

/-- For all nodes `a`, `b`: `b` is in the adjacency list of `a` iff `a` is in
the adjacency list of `b` iff the edge list has an entry for `{a, b}`. -/
def Synchronized (g : GameMap) : Prop :=
  ∀ a b : Fin g.nodes.length,
    (((b.val : Nat) : Int) ∈ g.adj a.val ↔ ((a.val : Nat) : Int) ∈ g.adj b.val) ∧
    (((b.val : Nat) : Int) ∈ g.adj a.val ↔ ∃ l ∈ g.links, l.connects a.val b.val)

instance (g : GameMap) : Decidable (Synchronized g) := by
  unfold Synchronized; infer_instance

/-- The consistency predicate of the graph: no self-loops, no duplicate edges,
adjacency lists synchronized with the edge list. -/
def Consistent (g : GameMap) : Prop :=
  NoSelfLoops g ∧ NoDuplicateEdges g ∧ Synchronized g

instance (g : GameMap) : Decidable (Consistent g) := by
  unfold Consistent; infer_instance

/-! ## Vocabulary of the cut policy -/

/-- The pair of path nodes examined at step `k` of the primary policy,
`(p[n-1-2k], p[n-2-2k])` for a path `p` of `n` nodes, as long as at least two
nodes remain. -/
def examinedPair (p : List Int) (k : Nat) : Option (Int × Int) :=
  if 2 * k + 2 ≤ p.length then
    match p[p.length - 1 - 2 * k]?, p[p.length - 2 - 2 * k]? with
    | some x, some y => some (x, y)
    | _, _ => none
  else none

/-! ## Vocabulary of the agent flag -/

/-- The agent flag is set on node `k` exactly when `k` is the recorded agent
index (so on no node when the recorded index is `-1`). -/
def AgentFlagged (g : GameMap) : Prop :=
  ∀ i : Fin g.nodes.length,
    (g.nodes.get i).isBobnetAgentPresent = true ↔ ((i.val : Nat) : Int) = g.bobnetAgentIndex

instance (g : GameMap) : Decidable (AgentFlagged g) := by
  unfold AgentFlagged; infer_instance

/-! ## Facts about slices -/

theorem getAt_range {α : Type} {xs : List α} {i : Int} {a : α} (h : getAt xs i = some a) :
    0 ≤ i ∧ i < xs.length := by
  unfold getAt at h
  split at h
  · cases h
  · rename_i hi
    have h2 := (List.getElem?_eq_some.1 h).1
    omega

theorem getAt_of_range {α : Type} {xs : List α} {i : Int} (h0 : 0 ≤ i) (h1 : i < xs.length) :
    ∃ a, getAt xs i = some a := by
  unfold getAt
  rw [if_neg (by omega)]
  have : i.toNat < xs.length := by omega
  exact ⟨xs[i.toNat], List.getElem?_eq_getElem this⟩

theorem length_setAt {α : Type} (xs : List α) (i : Int) (v : α) :
    (setAt xs i v).length = xs.length := by
  unfold setAt; split <;> simp

theorem getAt_setAt_self {α : Type} {xs : List α} {i : Int} {a : α} (v : α)
    (h : getAt xs i = some a) : getAt (setAt xs i v) i = some v := by
  have hr := getAt_range h
  unfold getAt setAt
  rw [if_neg (by omega), if_neg (by omega)]
  have : i.toNat < xs.length := by omega
  simp [List.getElem?_set, this]

theorem getAt_setAt_ne {α : Type} (xs : List α) {i j : Int} (v : α) (h : j ≠ i) :
    getAt (setAt xs i v) j = getAt xs j := by
  unfold getAt setAt
  by_cases hj : j < 0
  · simp [hj]
  · by_cases hi : i < 0
    · simp [hi]
    · have : i.toNat ≠ j.toNat := by omega
      simp [hi, hj, List.getElem?_set, this]

theorem count_set_of_ne {α : Type} [DecidableEq α] (x v : α) (hv : v ≠ x) :
    ∀ (xs : List α) (n : Nat), xs[n]? = some x → (xs.set n v).count x + 1 = xs.count x
  | [], _, h => by simp at h
  | y :: ys, 0, h => by
    simp at h
    subst h
    simp [List.count_cons, hv]
  | y :: ys, n + 1, h => by
    simp at h
    have ih := count_set_of_ne x v hv ys n h
    simp only [List.set_cons_succ, List.count_cons]
    omega

theorem count_setAt {α : Type} [DecidableEq α] {xs : List α} {i : Int} {x : α} (v : α)
    (h : getAt xs i = some x) (hv : v ≠ x) :
    (setAt xs i v).count x + 1 = xs.count x := by
  have hr := getAt_range h
  unfold getAt at h
  unfold setAt
  rw [if_neg (by omega)] at h
  rw [if_neg (by omega)]
  exact count_set_of_ne x v hv xs _ h

theorem getAt_replicate {α : Type} {n : Nat} {a b : α} {i : Int}
    (h : getAt (List.replicate n a) i = some b) : b = a := by
  unfold getAt at h
  split at h
  · cases h
  · obtain ⟨hlt, hb⟩ := List.getElem?_eq_some.1 h
    simpa using hb.symm

/-! ## The search: invariants of the two loops -/

theorem visited_setAt {parent : List Int} {s l cur : Int} (v : Int)
    (hp : getAt parent l = some (-1)) (hc : cur ≠ -1) :
    Visited (setAt parent l cur) s v ↔ v = l ∨ Visited parent s v := by
  unfold Visited
  by_cases hv : v = l
  · subst hv
    simp [getAt_setAt_self cur hp, hc]
  · simp [getAt_setAt_ne parent cur hv, hv]

theorem Visited.nonneg {parent : List Int} {s v : Int}
    (hs : getAt parent s = some (-1)) (h : Visited parent s v) : 0 ≤ v := by
  rcases h with h | ⟨p, hp, _⟩
  · subst h; exact (getAt_range hs).1
  · exact (getAt_range hp).1

theorem not_visited_of_unset {parent : List Int} {s l : Int} (hls : l ≠ s)
    (hp : getAt parent l = some (-1)) : ¬ Visited parent s l := by
  rintro (h | ⟨p, h1, h2⟩)
  · exact hls h
  · rw [hp] at h1
    cases h1
    exact h2 rfl

theorem ScanInv.discover {g : GameMap} {s cur l : Int} {done parent queue : List Int}
    {d : Int → Nat} (h : ScanInv g s cur done parent queue d) (hl : l ∈ g.adj cur)
    (hls : l ≠ s) (hp : getAt parent l = some (-1)) :
    ScanInv g s cur (done ++ [l]) (setAt parent l cur) (queue ++ [l])
      (Function.update d l (d cur + 1)) := by
  have hnv : ¬ Visited parent s l := not_visited_of_unset hls hp
  have hcur0 : 0 ≤ cur := h.cur_vis.nonneg h.start_unset
  have hc : cur ≠ -1 := by omega
  have hvis : ∀ v, Visited (setAt parent l cur) s v ↔ v = l ∨ Visited parent s v :=
    fun v => visited_setAt v hp hc
  have hd : ∀ v, Visited parent s v → Function.update d l (d cur + 1) v = d v := by
    intro v hv
    have : v ≠ l := fun e => hnv (e ▸ hv)
    simp [Function.update_apply, this]
  have hdl : Function.update d l (d cur + 1) l = d cur + 1 := by simp
  have hcount : (setAt parent l cur).count (-1) + 1 = parent.count (-1) :=
    count_setAt cur hp hc
  refine
    { len := by rw [length_setAt]; exact h.len
      start_unset := by rw [getAt_setAt_ne parent cur (Ne.symm hls)]; exact h.start_unset
      d_start := by rw [hd s (Or.inl rfl)]; exact h.d_start
      par := ?_
      queue_vis := ?_
      sorted := ?_
      depth_bound := ?_
      cur_vis := (hvis cur).2 (Or.inr h.cur_vis)
      cur_min := ?_
      near_cur := ?_
      closed := ?_
      cur_done := ?_ }
  · intro v p hv hpne
    by_cases hvl : v = l
    · subst hvl
      rw [getAt_setAt_self cur hp] at hv
      cases hv
      exact ⟨hls, (hvis _).2 (Or.inr h.cur_vis), hl, by rw [hdl, hd _ h.cur_vis]⟩
    · rw [getAt_setAt_ne parent cur hvl] at hv
      obtain ⟨h1, h2, h3, h4⟩ := h.par v p hv hpne
      refine ⟨h1, (hvis _).2 (Or.inr h2), h3, ?_⟩
      rw [hd _ h2, hd _ (Or.inr ⟨p, hv, hpne⟩)]
      exact h4
  · intro x hx
    rcases List.mem_append.1 hx with hx | hx
    · exact (hvis _).2 (Or.inr (h.queue_vis x hx))
    · exact (hvis _).2 (Or.inl (List.mem_singleton.1 hx))
  · rw [List.pairwise_append]
    refine ⟨?_, List.pairwise_singleton _ _, ?_⟩
    · refine List.Pairwise.imp_of_mem ?_ h.sorted
      intro a b ha hb hab
      rw [hd _ (h.queue_vis a ha), hd _ (h.queue_vis b hb)]
      exact hab
    · intro a ha b hb
      rw [List.mem_singleton.1 hb, hdl, hd _ (h.queue_vis a ha)]
      exact h.near_cur a (h.queue_vis a ha)
  · intro v hv
    rcases (hvis v).1 hv with hv | hv
    · subst hv
      have := h.depth_bound cur h.cur_vis
      rw [hdl]
      omega
    · have := h.depth_bound v hv
      rw [hd v hv]
      omega
  · intro x hx
    rw [hd _ h.cur_vis]
    rcases List.mem_append.1 hx with hx | hx
    · rw [hd _ (h.queue_vis x hx)]
      exact h.cur_min x hx
    · rw [List.mem_singleton.1 hx, hdl]
      omega
  · intro v hv
    rw [hd _ h.cur_vis]
    rcases (hvis v).1 hv with hv | hv
    · rw [hv, hdl]
    · rw [hd v hv]
      exact h.near_cur v hv
  · intro u hu huq huc w hw
    have hul : u ≠ l := fun e => huq (by simp [e])
    have hu' : Visited parent s u := ((hvis u).1 hu).resolve_left hul
    have huq' : u ∉ queue := fun e => huq (List.mem_append_left _ e)
    obtain ⟨h1, h2⟩ := h.closed u hu' huq' huc w hw
    refine ⟨(hvis _).2 (Or.inr h1), ?_⟩
    rw [hd _ h1, hd _ hu']
    exact h2
  · intro w hw
    rw [hd _ h.cur_vis]
    rcases List.mem_append.1 hw with hw | hw
    · obtain ⟨h1, h2⟩ := h.cur_done w hw
      refine ⟨(hvis _).2 (Or.inr h1), ?_⟩
      rw [hd _ h1]
      exact h2
    · rw [List.mem_singleton.1 hw, hdl]
      exact ⟨(hvis _).2 (Or.inl rfl), le_refl _⟩

theorem ScanInv.skip {g : GameMap} {s cur l : Int} {done parent queue : List Int}
    {d : Int → Nat} (h : ScanInv g s cur done parent queue d)
    (hv : Visited parent s l) :
    ScanInv g s cur (done ++ [l]) parent queue d :=
  { h with
    cur_done := by
      intro w hw
      rcases List.mem_append.1 hw with hw | hw
      · exact h.cur_done w hw
      · rw [List.mem_singleton.1 hw]
        exact ⟨hv, h.near_cur l hv⟩ }

theorem scanLinks_inv {g : GameMap} {s cur : Int} :
    ∀ (rest done parent queue : List Int) (d : Int → Nat),
      (∀ l ∈ rest, l ∈ g.adj cur ∧ ValidIndex g l) →
      ScanInv g s cur done parent queue d →
      ∃ parent' queue' d',
        scanLinks s cur rest (parent, queue) = .ok (parent', queue') ∧
        ScanInv g s cur (done ++ rest) parent' queue' d' ∧
        parent'.count (-1) + queue'.length = parent.count (-1) + queue.length
  | [], done, parent, queue, d, _, h => by
    refine ⟨parent, queue, d, rfl, ?_, rfl⟩
    simpa using h
  | l :: rest, done, parent, queue, d, hrest, h => by
    have hl := hrest l (List.mem_cons_self _ _)
    have hrest' : ∀ x ∈ rest, x ∈ g.adj cur ∧ ValidIndex g x :=
      fun x hx => hrest x (List.mem_cons_of_mem _ hx)
    have happ : done ++ l :: rest = (done ++ [l]) ++ rest := by simp
    rw [happ]
    unfold scanLinks
    by_cases hls : l = s
    · rw [if_neg (by simpa using hls)]
      exact scanLinks_inv rest (done ++ [l]) parent queue d hrest'
        (h.skip (Or.inl hls))
    · rw [if_pos hls]
      obtain ⟨p, hp⟩ := getAt_of_range hl.2.1 (by rw [h.len]; exact hl.2.2)
      rw [hp]
      by_cases hp1 : p = -1
      · subst hp1
        simp only [if_true]
        obtain ⟨parent', queue', d', h1, h2, h3⟩ :=
          scanLinks_inv rest (done ++ [l]) _ _ _ hrest' (h.discover hl.1 hls hp)
        refine ⟨parent', queue', d', h1, h2, ?_⟩
        have hcur0 : 0 ≤ cur := h.cur_vis.nonneg h.start_unset
        have := count_setAt cur hp (by omega : cur ≠ -1)
        rw [h3, List.length_append, List.length_singleton]
        omega
      · simp only [hp1, if_false]
        exact scanLinks_inv rest (done ++ [l]) parent queue d hrest'
          (h.skip (Or.inr ⟨p, hp, hp1⟩))

theorem mem_of_getAt {α : Type} {xs : List α} {i : Int} {a : α} (h : getAt xs i = some a) :
    a ∈ xs := by
  unfold getAt at h
  split at h
  · cases h
  · obtain ⟨hlt, hb⟩ := List.getElem?_eq_some.1 h
    exact hb ▸ List.getElem_mem hlt

theorem HeadInv.toScan {g : GameMap} {s cur : Int} {parent rest : List Int} {d : Int → Nat}
    (h : HeadInv g s parent (cur :: rest) d) : ScanInv g s cur [] parent rest d :=
  { len := h.len
    start_unset := h.start_unset
    d_start := h.d_start
    par := h.par
    queue_vis := fun x hx => h.queue_vis x (List.mem_cons_of_mem _ hx)
    sorted := (List.pairwise_cons.1 h.sorted).2
    depth_bound := h.depth_bound
    cur_vis := h.queue_vis cur (List.mem_cons_self _ _)
    cur_min := (List.pairwise_cons.1 h.sorted).1
    near_cur := fun v hv => h.near v hv cur (List.mem_cons_self _ _)
    closed := by
      intro u hu huq huc w hw
      refine h.closed u hu ?_ w hw
      rw [List.mem_cons]
      rintro (e | e)
      · exact huc e
      · exact huq e
    cur_done := by simp }

theorem ScanInv.toHead {g : GameMap} {s cur : Int} {parent queue : List Int} {d : Int → Nat}
    (h : ScanInv g s cur (g.adj cur) parent queue d) : HeadInv g s parent queue d :=
  { len := h.len
    start_unset := h.start_unset
    d_start := h.d_start
    par := h.par
    queue_vis := h.queue_vis
    sorted := h.sorted
    depth_bound := h.depth_bound
    near := by
      intro v hv x hx
      have h1 := h.near_cur v hv
      have h2 := h.cur_min x hx
      omega
    closed := by
      intro u hu huq w hw
      by_cases huc : u = cur
      · subst huc
        exact h.cur_done w hw
      · exact h.closed u hu huq huc w hw }

theorem HeadInv.init {g : GameMap} {s : Int} (hs : ValidIndex g s) :
    HeadInv g s (List.replicate g.nodes.length (-1)) [s] (fun _ => 0) := by
  have hlen : (List.replicate g.nodes.length (-1 : Int)).length = g.nodes.length :=
    List.length_replicate _ _
  have hunset : ∀ v p, getAt (List.replicate g.nodes.length (-1 : Int)) v = some p →
      p = -1 := fun v p h => getAt_replicate h
  have hstart : getAt (List.replicate g.nodes.length (-1 : Int)) s = some (-1) := by
    obtain ⟨a, ha⟩ := getAt_of_range hs.1 (by rw [hlen]; exact hs.2)
    rw [ha, hunset s a ha]
  have hvis : ∀ v, Visited (List.replicate g.nodes.length (-1 : Int)) s v → v = s := by
    rintro v (h | ⟨p, h1, h2⟩)
    · exact h
    · exact absurd (hunset v p h1) h2
  refine
    { len := hlen
      start_unset := hstart
      d_start := rfl
      par := fun v p h hp => absurd (hunset v p h) hp
      queue_vis := fun x hx => Or.inl (List.mem_singleton.1 hx)
      sorted := List.pairwise_singleton _ _
      depth_bound := ?_
      near := fun _ _ _ _ => Nat.zero_le _
      closed := ?_ }
  · intro v _
    simp
  · intro u hu huq
    exact absurd (List.mem_singleton.2 (hvis u hu)) huq

theorem count_pos_of_getAt {xs : List Int} {i x : Int} (h : getAt xs i = some x) :
    0 < xs.count x :=
  List.count_pos_iff.2 (mem_of_getAt h)

theorem searchLoop_inv {g : GameMap} {s e : Int}
    (hadj : ∀ n ∈ g.nodes, ∀ l ∈ n.links, ValidIndex g l) (he : ValidIndex g e) :
    ∀ (fuel : Nat) (parent queue : List Int) (d : Int → Nat), queue ≠ [] →
      HeadInv g s parent queue d → parent.count (-1) + queue.length ≤ fuel + 1 →
      ∃ parent' queue' d',
        searchLoop g s e fuel parent queue = .ok parent' ∧
        HeadInv g s parent' queue' d' ∧
        (queue' = [] ∨ ∃ p, getAt parent' e = some p ∧ p ≠ -1)
  | 0, parent, queue, d, hq, h, hfuel => by
    cases queue with
    | nil => exact absurd rfl hq
    | cons a l =>
      have := count_pos_of_getAt h.start_unset
      simp only [List.length_cons] at hfuel
      omega
  | fuel + 1, parent, queue, d, hq, h, hfuel => by
    cases queue with
    | nil => exact absurd rfl hq
    | cons cur rest =>
      have hscan := h.toScan
      have hcur0 : 0 ≤ cur := hscan.cur_vis.nonneg h.start_unset
      have hcur1 : cur < g.nodes.length := by
        rw [← h.len]
        rcases hscan.cur_vis with hc | ⟨p, hp, _⟩
        · rw [hc]; exact (getAt_range h.start_unset).2
        · exact (getAt_range hp).2
      obtain ⟨node, hnode⟩ := getAt_of_range hcur0 hcur1
      have hcur : g.adj cur = node.links := by simp [GameMap.adj, hnode]
      have hlinks : ∀ l ∈ node.links, l ∈ g.adj cur ∧ ValidIndex g l :=
        fun l hl => ⟨hcur ▸ hl, hadj node (mem_of_getAt hnode) l hl⟩
      obtain ⟨parent', queue', d', h1, h2, h3⟩ :=
        scanLinks_inv node.links [] parent rest d hlinks hscan
      rw [List.nil_append, ← hcur] at h2
      have hhead := h2.toHead
      unfold searchLoop
      simp only [hnode, h1]
      by_cases hq' : queue'.length = 0
      · rw [if_pos hq']
        exact ⟨parent', queue', d', rfl, hhead, Or.inl (List.length_eq_zero.1 hq')⟩
      · rw [if_neg hq']
        obtain ⟨p, hp⟩ := getAt_of_range he.1 (by rw [hhead.len]; exact he.2)
        simp only [hp]
        by_cases hp1 : p = -1
        · simp only [hp1, ne_eq, not_true_eq_false, if_false]
          refine searchLoop_inv hadj he fuel parent' queue' d' ?_ hhead ?_
          · intro hnil
            exact hq' (by rw [hnil]; rfl)
          · rw [h3]
            simp only [List.length_cons] at hfuel
            omega
        · simp only [ne_eq, hp1, not_false_eq_true, if_true]
          exact ⟨parent', queue', d', rfl, hhead, Or.inr ⟨p, hp, hp1⟩⟩

theorem buildPath_inv {g : GameMap} {s : Int} {parent queue : List Int} {d : Int → Nat}
    (h : SearchInv g s parent queue d) :
    ∀ (n fuel : Nat) (v : Int) (acc : List Int), Visited parent s v → d v = n → n < fuel →
      IsWalk g (v :: acc) →
      ∃ path, buildPath parent fuel v acc = .ok path ∧ IsWalk g (s :: path) ∧
        path.length = n + acc.length ∧ (s :: path).getLast? = (v :: acc).getLast?
  | n, 0, v, acc, _, _, hf, _ => by omega
  | 0, fuel + 1, v, acc, hv, hd, _, hw => by
    have hvs : v = s := by
      rcases hv with hv | ⟨p, hp, hp1⟩
      · exact hv
      · have := (h.par v p hp hp1).2.2.2
        omega
    subst hvs
    refine ⟨acc, ?_, hw, by simp, rfl⟩
    unfold buildPath
    simp [h.start_unset]
  | n + 1, fuel + 1, v, acc, hv, hd, hf, hw => by
    have hvs : v ≠ s := by
      intro e
      rw [e, h.d_start] at hd
      omega
    obtain ⟨p, hp, hp1⟩ := hv.resolve_left hvs
    obtain ⟨_, hpv, hadj, hdv⟩ := h.par v p hp hp1
    have hw' : IsWalk g (p :: v :: acc) := ⟨hadj, hw⟩
    obtain ⟨path, h1, h2, h3, h4⟩ :=
      buildPath_inv h n fuel p (v :: acc) hpv (by omega) (by omega) hw'
    refine ⟨path, ?_, h2, ?_, ?_⟩
    · unfold buildPath
      simp only [hp, ne_eq, hp1, not_false_eq_true, if_true]
      exact h1
    · rw [h3, List.length_cons]
      omega
    · rw [h4, List.getLast?_cons_cons]

theorem HeadInv.dist_le {g : GameMap} {s e : Int} {parent queue : List Int} {d : Int → Nat}
    (h : HeadInv g s parent queue d) (he : Visited parent s e) :
    ∀ (w : List Int) (v : Int), Visited parent s v → IsWalk g (v :: w) →
      (v :: w).getLast? = some e → d e ≤ d v + w.length
  | [], v, _, _, hlast => by
    simp at hlast
    rw [hlast]
    omega
  | v1 :: w, v, hv, hw, hlast => by
    rw [List.getLast?_cons_cons] at hlast
    by_cases hq : v ∈ queue
    · have := h.near e he v hq
      simp only [List.length_cons]
      omega
    · obtain ⟨hadj, hw'⟩ := hw
      obtain ⟨hv1, hd1⟩ := h.closed v hv hq v1 hadj
      have := HeadInv.dist_le h he w v1 hv1 hw' hlast
      simp only [List.length_cons]
      omega

theorem HeadInv.closed_walk {g : GameMap} {s e : Int} {parent : List Int} {d : Int → Nat}
    (h : HeadInv g s parent [] d) :
    ∀ (w : List Int) (v : Int), Visited parent s v → IsWalk g (v :: w) →
      (v :: w).getLast? = some e → Visited parent s e
  | [], v, hv, _, hlast => by
    simp at hlast
    exact hlast ▸ hv
  | v1 :: w, v, hv, hw, hlast => by
    rw [List.getLast?_cons_cons] at hlast
    obtain ⟨hadj, hw'⟩ := hw
    exact HeadInv.closed_walk h w v1 (h.closed v hv (by simp) v1 hadj).1 hw' hlast

/-- The contract of the search: on a well-formed graph and distinct valid
indices the search returns; it returns `[]` when the end is not reachable, and
otherwise a walk from start to end that no walk undercuts. -/
theorem getShortestPath_spec {g : GameMap} {s e : Int} (hwf : WellFormed g)
    (hs : ValidIndex g s) (he : ValidIndex g e) (hne : s ≠ e) :
    ∃ p, getShortestPath g s e = .ok p ∧
      ((p = [] ∧ ¬ Reachable g s e) ∨
        (WalkFromTo g s e p ∧ ∀ w, WalkFromTo g s e w → p.length ≤ w.length)) := by
  obtain ⟨parent, queue, d, h1, h2, h3⟩ :=
    searchLoop_inv (s := s) hwf.2 he (g.nodes.length + 1) (List.replicate g.nodes.length (-1))
      [s] (fun _ => 0) (by simp) (HeadInv.init hs)
      (by rw [List.count_replicate_self, List.length_singleton]; omega)
  obtain ⟨p, hp⟩ := getAt_of_range he.1 (by rw [h2.len]; exact he.2)
  unfold getShortestPath
  simp only [if_neg hne, h1, hp]
  by_cases hp1 : p = -1
  · rw [if_pos hp1]
    refine ⟨[], rfl, Or.inl ⟨rfl, ?_⟩⟩
    rintro ⟨w, hhead, hlast, hw⟩
    have hnv : ¬ Visited parent s e :=
      not_visited_of_unset (Ne.symm hne) (hp1 ▸ hp)
    rcases h3 with hq | ⟨p', hp', hp1'⟩
    · subst hq
      cases w with
      | nil => simp at hhead
      | cons a w =>
        simp only [List.head?_cons, Option.some.injEq] at hhead
        subst hhead
        exact hnv (h2.closed_walk w a (Or.inl rfl) hw hlast)
    · rw [hp] at hp'
      cases hp'
      exact hp1' hp1
  · rw [if_neg hp1]
    have hev : Visited parent s e := Or.inr ⟨p, hp, hp1⟩
    have hde : d e < g.nodes.length + 1 := by
      have := h2.depth_bound e hev
      omega
    obtain ⟨path, hb1, hb2, hb3, hb4⟩ :=
      buildPath_inv h2.toSearchInv (d e) (g.nodes.length + 1) e [] hev rfl hde
        trivial
    simp only [hb1]
    refine ⟨s :: path, rfl, Or.inr ⟨⟨rfl, ?_, hb2⟩, ?_⟩⟩
    · rw [hb4]; rfl
    · rintro w ⟨hhead, hlast, hw⟩
      cases w with
      | nil => simp at hhead
      | cons a w =>
        simp only [List.head?_cons, Option.some.injEq] at hhead
        subst hhead
        have := h2.dist_le hev w a (Or.inl rfl) hw hlast
        rw [h2.d_start] at this
        simp only [List.length_cons, hb3, List.length_nil]
        omega

/-! ## The search: the claims -/

theorem isWalk_get {g : GameMap} :
    ∀ {w : List Int}, IsWalk g w → ∀ (k : Nat) (hk : k + 1 < w.length),
      w[k + 1] ∈ g.adj w[k]
  | [], _, k, hk => by simp at hk
  | [_], _, k, hk => by simp at hk
  | u :: v :: rest, h, 0, _ => h.1
  | u :: v :: rest, h, k + 1, hk => by
    have := isWalk_get h.2 k (by simpa using hk)
    simpa using this

/-- C1: on a graph whose node table holds node `i` at position `i` and whose
adjacency entries are valid indices, for valid `start ≠ end` with `end`
reachable from `start`, `getShortestPath` returns a sequence that starts with
`start`, ends with `end`, and in which each `p[k+1]` is in the adjacency list
of node `p[k]`. -/
theorem getShortestPath_returns_walk (g : GameMap) (s e : Int) (hwf : WellFormed g)
    (hs : ValidIndex g s) (he : ValidIndex g e) (hne : s ≠ e) (hreach : Reachable g s e) :
    ∃ p, getShortestPath g s e = .ok p ∧ p.head? = some s ∧ p.getLast? = some e ∧
      ∀ (k : Nat) (hk : k + 1 < p.length), p[k + 1] ∈ g.adj p[k] := by
  obtain ⟨p, hp, h | h⟩ := getShortestPath_spec hwf hs he hne
  · exact absurd hreach h.2
  · obtain ⟨⟨h1, h2, h3⟩, _⟩ := h
    refine ⟨p, hp, h1, h2, ?_⟩
    intro k hk
    exact isWalk_get h3 k hk

theorem getShortestPath_returns_walk_witness :
    ∃ p, getShortestPath scenarioA 0 3 = .ok p ∧ p.head? = some 0 ∧ p.getLast? = some 3 ∧
      ∀ (k : Nat) (hk : k + 1 < p.length), p[k + 1] ∈ scenarioA.adj p[k] :=
  getShortestPath_returns_walk scenarioA 0 3 (by decide) (by decide) (by decide) (by decide)
    ⟨[0, 1, 2, 3], by decide⟩

/-- C2: on a well-formed graph, for valid `start ≠ end` with `end` reachable
from `start`, the path returned by `getShortestPath` is a walk from `start` to
`end` and no walk from `start` to `end` along adjacency lists has fewer edges
(nodes minus one): its number of edges is the graph distance. -/
theorem getShortestPath_is_shortest (g : GameMap) (s e : Int) (hwf : WellFormed g)
    (hs : ValidIndex g s) (he : ValidIndex g e) (hne : s ≠ e) (hreach : Reachable g s e) :
    ∃ p, getShortestPath g s e = .ok p ∧ WalkFromTo g s e p ∧
      ∀ w, WalkFromTo g s e w → p.length - 1 ≤ w.length - 1 := by
  obtain ⟨p, hp, h | h⟩ := getShortestPath_spec hwf hs he hne
  · exact absurd hreach h.2
  · exact ⟨p, hp, h.1, fun w hw => Nat.sub_le_sub_right (h.2 w hw) 1⟩

theorem getShortestPath_is_shortest_witness :
    ∃ p, getShortestPath scenarioA 0 3 = .ok p ∧ WalkFromTo scenarioA 0 3 p ∧
      ∀ w, WalkFromTo scenarioA 0 3 w → p.length - 1 ≤ w.length - 1 :=
  getShortestPath_is_shortest scenarioA 0 3 (by decide) (by decide) (by decide) (by decide)
    ⟨[0, 1, 2, 3], by decide⟩

/-- C3: on a well-formed graph and valid indices `start`, `end`,
`getShortestPath` returns, and what it returns is the empty sequence if and
only if `start = end` or `end` is not reachable from `start`. -/
theorem getShortestPath_empty_iff (g : GameMap) (s e : Int) (hwf : WellFormed g)
    (hs : ValidIndex g s) (he : ValidIndex g e) :
    (∃ p, getShortestPath g s e = .ok p) ∧
      (getShortestPath g s e = .ok [] ↔ s = e ∨ ¬ Reachable g s e) := by
  by_cases hse : s = e
  · subst hse
    have : getShortestPath g s s = .ok [] := by
      unfold getShortestPath
      rw [if_pos rfl]
    exact ⟨⟨[], this⟩, by simp [this]⟩
  · obtain ⟨p, hp, h | h⟩ := getShortestPath_spec hwf hs he hse
    · refine ⟨⟨p, hp⟩, ?_⟩
      rw [hp, h.1]
      simp [h.2]
    · refine ⟨⟨p, hp⟩, ?_⟩
      have hreach : Reachable g s e := ⟨p, h.1⟩
      have hpne : p ≠ [] := by
        intro hnil
        have := h.1.1
        rw [hnil] at this
        simp at this
      rw [hp]
      constructor
      · intro h'
        cases h'
        exact absurd rfl hpne
      · rintro (h' | h')
        · exact absurd h' hse
        · exact absurd hreach h'

theorem getShortestPath_empty_iff_witness :
    (∃ p, getShortestPath scenarioA 0 3 = .ok p) ∧
      (getShortestPath scenarioA 0 3 = .ok [] ↔ (0 : Int) = 3 ∨ ¬ Reachable scenarioA 0 3) :=
  getShortestPath_empty_iff scenarioA 0 3 (by decide) (by decide) (by decide)

/-! ## The nearest-exit search -/

theorem exitPaths_ok {g : GameMap} :
    ∀ (arrival : List Int),
      (∀ x ∈ arrival, ∃ p, getShortestPath g g.bobnetAgentIndex x = .ok p) →
      ∃ paths, exitPaths g arrival = .ok paths ∧
        (∀ p ∈ paths, ∃ x ∈ arrival, getShortestPath g g.bobnetAgentIndex x = .ok p) ∧
        (∀ x ∈ arrival, ∃ p ∈ paths, getShortestPath g g.bobnetAgentIndex x = .ok p)
  | [], _ => ⟨[], rfl, by simp, by simp⟩
  | x :: rest, h => by
    obtain ⟨p, hp⟩ := h x (List.mem_cons_self _ _)
    obtain ⟨ps, h1, h2, h3⟩ :=
      exitPaths_ok rest (fun y hy => h y (List.mem_cons_of_mem _ hy))
    refine ⟨p :: ps, ?_, ?_, ?_⟩
    · unfold exitPaths
      simp only [hp, h1]
    · intro q hq
      rcases List.mem_cons.1 hq with hq | hq
      · exact ⟨x, List.mem_cons_self _ _, hq ▸ hp⟩
      · obtain ⟨y, hy, hyq⟩ := h2 q hq
        exact ⟨y, List.mem_cons_of_mem _ hy, hyq⟩
    · intro y hy
      rcases List.mem_cons.1 hy with hy | hy
      · exact ⟨p, List.mem_cons_self _ _, hy ▸ hp⟩
      · obtain ⟨q, hq, hyq⟩ := h3 y hy
        exact ⟨q, List.mem_cons_of_mem _ hq, hyq⟩

/-- What the receiving loop computes from the current `path` and the paths
still to be received. -/
theorem collectPaths_spec :
    ∀ (paths : List (List Int)) (acc : Option (List Int)),
      (collectPaths acc paths = none → acc = none ∧ ∀ p ∈ paths, p = []) ∧
      (∀ q, collectPaths acc paths = some q →
        (acc = some q ∨ (q ∈ paths ∧ q ≠ [])) ∧
        (∀ a, acc = some a → q.length ≤ a.length) ∧
        ∀ p ∈ paths, p ≠ [] → q.length ≤ p.length)
  | [], acc => by
    refine ⟨fun h => ⟨h, by simp⟩, fun q h => ⟨Or.inl h, ?_, by simp⟩⟩
    intro a ha
    simp only [collectPaths] at h
    rw [h] at ha
    cases ha
    exact le_refl _
  | p :: rest, acc => by
    by_cases hp : p.length = 0
    · have hnil : p = [] := List.length_eq_zero.1 hp
      have hstep : collectPaths acc (p :: rest) = collectPaths acc rest := by
        simp [collectPaths, hp]
      obtain ⟨ih1, ih2⟩ := collectPaths_spec rest acc
      rw [hstep]
      refine ⟨fun h => ⟨(ih1 h).1, ?_⟩, fun q h => ?_⟩
      · intro x hx
        rcases List.mem_cons.1 hx with hx | hx
        · exact hx ▸ hnil
        · exact (ih1 h).2 x hx
      · obtain ⟨h1, h2, h3⟩ := ih2 q h
        refine ⟨?_, h2, ?_⟩
        · rcases h1 with h1 | h1
          · exact Or.inl h1
          · exact Or.inr ⟨List.mem_cons_of_mem _ h1.1, h1.2⟩
        · intro x hx hxne
          rcases List.mem_cons.1 hx with hx | hx
          · exact absurd (hx ▸ hnil) hxne
          · exact h3 x hx hxne
    · have hpne : p ≠ [] := fun e => hp (by rw [e]; rfl)
      cases acc with
      | none =>
        have hstep : collectPaths none (p :: rest) = collectPaths (some p) rest := by
          simp [collectPaths, hp]
        obtain ⟨ih1, ih2⟩ := collectPaths_spec rest (some p)
        rw [hstep]
        refine ⟨fun h => absurd (ih1 h).1 (by simp), fun q h => ?_⟩
        obtain ⟨h1, h2, h3⟩ := ih2 q h
        refine ⟨Or.inr ?_, by simp, ?_⟩
        · rcases h1 with h1 | h1
          · cases h1
            exact ⟨List.mem_cons_self _ _, hpne⟩
          · exact ⟨List.mem_cons_of_mem _ h1.1, h1.2⟩
        · intro x hx hxne
          rcases List.mem_cons.1 hx with hx | hx
          · exact hx ▸ h2 p rfl
          · exact h3 x hx hxne
      | some cur =>
        by_cases hlt : p.length < cur.length
        · have hstep : collectPaths (some cur) (p :: rest) = collectPaths (some p) rest := by
            simp [collectPaths, hp, hlt]
          obtain ⟨ih1, ih2⟩ := collectPaths_spec rest (some p)
          rw [hstep]
          refine ⟨fun h => absurd (ih1 h).1 (by simp), fun q h => ?_⟩
          obtain ⟨h1, h2, h3⟩ := ih2 q h
          refine ⟨Or.inr ?_, ?_, ?_⟩
          · rcases h1 with h1 | h1
            · cases h1
              exact ⟨List.mem_cons_self _ _, hpne⟩
            · exact ⟨List.mem_cons_of_mem _ h1.1, h1.2⟩
          · intro a ha
            cases ha
            have := h2 p rfl
            omega
          · intro x hx hxne
            rcases List.mem_cons.1 hx with hx | hx
            · exact hx ▸ h2 p rfl
            · exact h3 x hx hxne
        · have hstep : collectPaths (some cur) (p :: rest) = collectPaths (some cur) rest := by
            simp [collectPaths, hp, hlt]
          obtain ⟨ih1, ih2⟩ := collectPaths_spec rest (some cur)
          rw [hstep]
          refine ⟨fun h => absurd (ih1 h).1 (by simp), fun q h => ?_⟩
          obtain ⟨h1, h2, h3⟩ := ih2 q h
          refine ⟨?_, h2, ?_⟩
          · rcases h1 with h1 | h1
            · exact Or.inl h1
            · exact Or.inr ⟨List.mem_cons_of_mem _ h1.1, h1.2⟩
          · intro x hx hxne
            rcases List.mem_cons.1 hx with hx | hx
            · have := h2 cur rfl
              rw [hx]
              omega
            · exact h3 x hx hxne

theorem walkFromTo_ne_nil {g : GameMap} {s e : Int} {w : List Int}
    (h : WalkFromTo g s e w) : w ≠ [] := by
  intro hnil
  have := h.1
  rw [hnil] at this
  simp at this

/-- C4 (as stated, refuted): with the agent on exit 0 of the line 0 - 1 - 2
whose other exit is 2, the agent is at distance 0 from an exit (the walk `[0]`),
yet `getBobnetPath` returns the path `[0, 1, 2]` of 2 edges: the number of edges
returned is not the minimum of the distances to the reachable exits. -/
theorem getBobnetPath_agent_on_exit_counterexample :
    WellFormed agentOnExit ∧ ValidIndex agentOnExit agentOnExit.bobnetAgentIndex ∧
      getBobnetPath (some agentOnExit) agentOnExit.exits = .ok (.ok [0, 1, 2]) ∧
      ∃ x ∈ agentOnExit.exits, ∃ w, WalkFromTo agentOnExit agentOnExit.bobnetAgentIndex x w ∧
        w.length - 1 < [(0 : Int), 1, 2].length - 1 :=
  ⟨by decide, by decide, by decide, 0, by decide, [0], by decide, by decide⟩

/-- C4 (amended): on a well-formed graph with a valid agent position and valid
exits, whatever the order in which the results are received, `getBobnetPath`
returns a path to an exit other than the agent's own node whose number of
edges is the minimum of the distances to such exits; it returns the empty path
if no exit other than the agent's own node is reachable. -/
theorem getBobnetPath_nearest_exit (g : GameMap) (arrival : List Int) (hwf : WellFormed g)
    (hagent : ValidIndex g g.bobnetAgentIndex) (hexits : ∀ x ∈ g.exits, ValidIndex g x)
    (harr : arrival.Perm g.exits) :
    ∃ p, getBobnetPath (some g) arrival = .ok (.ok p) ∧
      ((p = [] ∧ ∀ x ∈ g.exits, x ≠ g.bobnetAgentIndex →
          ¬ Reachable g g.bobnetAgentIndex x) ∨
        (∃ x ∈ g.exits, x ≠ g.bobnetAgentIndex ∧ WalkFromTo g g.bobnetAgentIndex x p ∧
          ∀ y ∈ g.exits, y ≠ g.bobnetAgentIndex → ∀ w,
            WalkFromTo g g.bobnetAgentIndex y w → p.length - 1 ≤ w.length - 1)) := by
  have hvalid : ∀ x ∈ arrival, ValidIndex g x := fun x hx => hexits x (harr.mem_iff.1 hx)
  have hself : getShortestPath g g.bobnetAgentIndex g.bobnetAgentIndex = .ok [] := by
    unfold getShortestPath
    rw [if_pos rfl]
  have hall : ∀ x ∈ arrival, ∃ p, getShortestPath g g.bobnetAgentIndex x = .ok p := by
    intro x hx
    by_cases hxa : g.bobnetAgentIndex = x
    · exact ⟨[], hxa ▸ hself⟩
    · obtain ⟨p, hp, _⟩ := getShortestPath_spec hwf hagent (hvalid x hx) hxa
      exact ⟨p, hp⟩
  obtain ⟨paths, hpaths, hfrom, hto⟩ := exitPaths_ok arrival hall
  obtain ⟨hnone, hsome⟩ := collectPaths_spec paths none
  unfold getBobnetPath
  simp only [hpaths]
  cases hc : collectPaths none paths with
  | none =>
    refine ⟨[], rfl, Or.inl ⟨rfl, ?_⟩⟩
    intro x hx hxa hreach
    obtain ⟨p, hp, hpx⟩ := hto x (harr.mem_iff.2 hx)
    have hpnil : p = [] := (hnone hc).2 p hp
    obtain ⟨p', hp', h | h⟩ :=
      getShortestPath_spec hwf hagent (hexits x hx) (Ne.symm hxa)
    · exact h.2 hreach
    · rw [hpx] at hp'
      cases hp'
      exact walkFromTo_ne_nil h.1 hpnil
  | some q =>
    obtain ⟨hq, -, hmin⟩ := hsome q hc
    obtain ⟨hqmem, hqne⟩ := hq.resolve_left (by simp)
    obtain ⟨x, hx, hxq⟩ := hfrom q hqmem
    have hxa : g.bobnetAgentIndex ≠ x := by
      intro e
      rw [← e, hself] at hxq
      cases hxq
      exact hqne rfl
    refine ⟨q, rfl, Or.inr ⟨x, harr.mem_iff.1 hx, Ne.symm hxa, ?_, ?_⟩⟩
    · obtain ⟨p', hp', h | h⟩ := getShortestPath_spec hwf hagent (hvalid x hx) hxa
      · rw [hxq] at hp'
        cases hp'
        exact absurd h.1 hqne
      · rw [hxq] at hp'
        cases hp'
        exact h.1
    · intro y hy hya w hw
      obtain ⟨p, hp, hpy⟩ := hto y (harr.mem_iff.2 hy)
      obtain ⟨p', hp', h | h⟩ :=
        getShortestPath_spec hwf hagent (hexits y hy) (Ne.symm hya)
      · exact absurd ⟨w, hw⟩ h.2
      · rw [hpy] at hp'
        cases hp'
        have h1 := hmin p hp (walkFromTo_ne_nil h.1)
        have h2 := h.2 w hw
        omega

theorem getBobnetPath_nearest_exit_witness :
    ∃ p, getBobnetPath (some agentOnExit) [2, 0] = .ok (.ok p) ∧
      ((p = [] ∧ ∀ x ∈ agentOnExit.exits, x ≠ agentOnExit.bobnetAgentIndex →
          ¬ Reachable agentOnExit agentOnExit.bobnetAgentIndex x) ∨
        (∃ x ∈ agentOnExit.exits, x ≠ agentOnExit.bobnetAgentIndex ∧
          WalkFromTo agentOnExit agentOnExit.bobnetAgentIndex x p ∧
          ∀ y ∈ agentOnExit.exits, y ≠ agentOnExit.bobnetAgentIndex → ∀ w,
            WalkFromTo agentOnExit agentOnExit.bobnetAgentIndex y w →
              p.length - 1 ≤ w.length - 1)) :=
  getBobnetPath_nearest_exit agentOnExit [2, 0] (by decide) (by decide) (by decide)
    (List.Perm.swap 0 2 [])

/-! ## Removal of a link: list facts -/

theorem firstIndex_none {α : Type} {p : α → Bool} :
    ∀ {xs : List α}, firstIndex p xs = none → ∀ x ∈ xs, p x = false
  | [], _, x, hx => by simp at hx
  | y :: ys, h, x, hx => by
    unfold firstIndex at h
    by_cases hy : p y = true
    · simp [hy] at h
    · simp only [hy, Bool.false_eq_true, if_false, Option.map_eq_none'] at h
      rcases List.mem_cons.1 hx with hx | hx
      · rw [hx]; simpa using hy
      · exact firstIndex_none h x hx

theorem firstIndex_none_of_forall {α : Type} {p : α → Bool} :
    ∀ {xs : List α}, (∀ x ∈ xs, p x = false) → firstIndex p xs = none
  | [], _ => rfl
  | y :: ys, h => by
    unfold firstIndex
    rw [h y (List.mem_cons_self _ _)]
    simp only [Bool.false_eq_true, if_false, Option.map_eq_none']
    exact firstIndex_none_of_forall (fun x hx => h x (List.mem_cons_of_mem _ hx))

theorem firstIndex_some {α : Type} {p : α → Bool} :
    ∀ {xs : List α} {i : Nat}, firstIndex p xs = some i →
      i < xs.length ∧ xs.eraseIdx i = xs.eraseP p
  | [], i, h => by simp [firstIndex] at h
  | y :: ys, i, h => by
    unfold firstIndex at h
    by_cases hy : p y = true
    · simp only [hy, if_true, Option.some.injEq] at h
      subst h
      simp [List.eraseP_cons, hy]
    · simp only [hy, Bool.false_eq_true, if_false, Option.map_eq_some'] at h
      obtain ⟨j, hj, rfl⟩ := h
      obtain ⟨h1, h2⟩ := firstIndex_some hj
      refine ⟨by simpa using h1, ?_⟩
      simp [List.eraseP_cons, hy, h2]

theorem set_perm_cons_eraseIdx {α : Type} (v : α) :
    ∀ (xs : List α) (j : Nat), j < xs.length → (xs.set j v).Perm (v :: xs.eraseIdx j)
  | [], j, h => by simp at h
  | x :: xs, 0, _ => by simp
  | x :: xs, j + 1, h => by
    have ih := set_perm_cons_eraseIdx v xs j (by simpa using h)
    simp only [List.set_cons_succ, List.eraseIdx_cons_succ]
    exact (List.Perm.cons x ih).trans (List.Perm.swap v x _)

theorem swapRemove_perm {α : Type} :
    ∀ (xs : List α) (i : Nat), i < xs.length → (swapRemove xs i).Perm (xs.eraseIdx i)
  | [], i, h => by simp at h
  | [x], i, h => by
    have : i = 0 := by simpa using h
    subst this
    simp [swapRemove]
  | x :: y :: t, 0, _ => by
    simp [swapRemove]
  | x :: y :: t, j + 1, h => by
    have hj : j < (y :: t).length := by simpa using h
    have hget : (y :: t)[j]? = some (y :: t)[j] := List.getElem?_eq_getElem hj
    have : swapRemove (x :: y :: t) (j + 1) = (y :: t).set j x := by
      unfold swapRemove
      simp only [List.length_cons, Nat.add_eq_right, Nat.add_eq_zero, one_ne_zero, and_false,
        if_false, List.getElem?_cons_zero, List.getElem?_cons_succ, hget, List.set_cons_zero,
        List.set_cons_succ, List.drop_succ_cons, List.drop_zero]
    rw [this, List.eraseIdx_cons_succ]
    exact set_perm_cons_eraseIdx x (y :: t) j hj

/-! ## Removal of a link: the node table and the edge list -/

theorem getAt_modifyAt {α : Type} (xs : List α) (i j : Int) (f : α → α) :
    getAt (modifyAt xs i f) j = if j = i then (getAt xs i).map f else getAt xs j := by
  unfold modifyAt
  cases h : getAt xs i with
  | none =>
    by_cases hj : j = i
    · simp [hj, h]
    · simp [hj]
  | some a =>
    by_cases hj : j = i
    · subst hj
      simp [getAt_setAt_self (f a) h]
    · simp [hj, getAt_setAt_ne xs (f a) hj]

theorem length_modifyAt {α : Type} (xs : List α) (i : Int) (f : α → α) :
    (modifyAt xs i f).length = xs.length := by
  unfold modifyAt
  split
  · exact length_setAt _ _ _
  · rfl

theorem set_of_getElem? {α : Type} (a : α) :
    ∀ (xs : List α) (n : Nat), xs[n]? = some a → xs.set n a = xs
  | [], _, h => by simp at h
  | x :: xs, 0, h => by
    simp at h
    simp [h]
  | x :: xs, n + 1, h => by
    simp at h
    simp [set_of_getElem? a xs n h]

theorem setAt_getAt_self {α : Type} {xs : List α} {i : Int} {a : α}
    (h : getAt xs i = some a) : setAt xs i a = xs := by
  have hr := getAt_range h
  unfold getAt at h
  unfold setAt
  rw [if_neg (by omega)] at h
  rw [if_neg (by omega)]
  exact set_of_getElem? a xs _ h

theorem modifyAt_id_of {α : Type} (xs : List α) (i : Int) (f : α → α)
    (h : ∀ a, getAt xs i = some a → f a = a) : modifyAt xs i f = xs := by
  unfold modifyAt
  cases hg : getAt xs i with
  | none => rfl
  | some a =>
    simp only
    rw [h a hg]
    exact setAt_getAt_self hg

theorem eraseP_beq_eq_erase (b : Int) :
    ∀ xs : List Int, xs.eraseP (fun n => n == b) = xs.erase b
  | [] => rfl
  | x :: xs => by
    by_cases hx : x = b
    · subst hx
      simp
    · have hx' : ¬ (x == b) = true := by simpa using hx
      rw [List.erase_cons_tail hx', ← eraseP_beq_eq_erase b xs]
      simp [List.eraseP_cons, hx]

theorem Node.removeLink_of_not_mem {n : Node} {b : Int} (h : b ∉ n.links) :
    n.removeLink b = n := by
  unfold Node.removeLink
  rw [firstIndex_none_of_forall]
  intro x hx
  have : x ≠ b := fun e => h (e ▸ hx)
  simpa using this

theorem Node.removeLink_links_erase (n : Node) (b : Int) :
    (n.removeLink b).links.Perm (n.links.erase b) := by
  unfold Node.removeLink
  cases h : firstIndex (fun n => n == b) n.links with
  | none =>
    have hb : b ∉ n.links := by
      intro hb
      have := firstIndex_none h b hb
      simp at this
    simp only
    rw [List.erase_of_not_mem hb]
  | some i =>
    obtain ⟨h1, h2⟩ := firstIndex_some h
    simp only
    rw [← eraseP_beq_eq_erase, ← h2]
    exact swapRemove_perm _ _ h1

theorem GameMap.removeLink_nodes (g : GameMap) (l : Link) :
    (g.removeLink l).nodes =
      modifyAt (modifyAt g.nodes l.node1 (fun n => n.removeLink l.node2)) l.node2
        (fun n => n.removeLink l.node1) := by
  unfold GameMap.removeLink
  split <;> rfl

theorem GameMap.removeLink_links_perm (g : GameMap) (l : Link) :
    (g.removeLink l).links.Perm (g.links.eraseP (fun m => m.joins l.node1 l.node2)) := by
  unfold GameMap.removeLink
  cases h : firstIndex (fun m => m.joins l.node1 l.node2) g.links with
  | none =>
    simp only
    rw [List.eraseP_of_forall_not]
    intro m hm
    simp [firstIndex_none h m hm]
  | some i =>
    obtain ⟨h1, h2⟩ := firstIndex_some h
    simp only
    rw [← h2]
    exact swapRemove_perm _ _ h1

theorem GameMap.removeLink_fixed (g : GameMap) (l : Link) :
    (g.removeLink l).nodes.length = g.nodes.length ∧
      (g.removeLink l).exits = g.exits ∧
      (g.removeLink l).bobnetAgentIndex = g.bobnetAgentIndex := by
  refine ⟨?_, ?_, ?_⟩
  · rw [GameMap.removeLink_nodes, length_modifyAt, length_modifyAt]
  · unfold GameMap.removeLink
    split <;> rfl
  · unfold GameMap.removeLink
    split <;> rfl

theorem adj_eq_of_getAt {g : GameMap} {c : Int} {n : Node} (h : getAt g.nodes c = some n) :
    g.adj c = n.links := by
  simp [GameMap.adj, h]

theorem adj_of_not_valid {g : GameMap} {c : Int} (h : ¬ ValidIndex g c) : g.adj c = [] := by
  unfold GameMap.adj
  cases hg : getAt g.nodes c with
  | none => rfl
  | some n => exact absurd (getAt_range hg) h

/-- The node at position `c` after `removeLink`. -/
theorem getAt_removeLink_nodes (g : GameMap) (l : Link) (c : Int) :
    getAt (g.removeLink l).nodes c =
      (getAt g.nodes c).map (fun n =>
        if c = l.node2 then
          (if c = l.node1 then n.removeLink l.node2 else n).removeLink l.node1
        else if c = l.node1 then n.removeLink l.node2 else n) := by
  rw [GameMap.removeLink_nodes, getAt_modifyAt]
  by_cases h2 : c = l.node2
  · rw [if_pos h2, getAt_modifyAt, ← h2]
    by_cases h1 : c = l.node1
    · simp only [h1, if_true]
      cases getAt g.nodes l.node1 <;> simp
    · simp only [h1, if_false]
      cases getAt g.nodes c <;> simp
  · rw [if_neg h2, getAt_modifyAt]
    by_cases h1 : c = l.node1
    · simp only [h1, if_true]
      cases getAt g.nodes l.node1 <;> simp [← h1, h2]
    · simp only [h1, if_false]
      cases getAt g.nodes c <;> simp [h2]

/-- The adjacency lists after `removeLink`, up to the order of the entries. -/
theorem adj_removeLink_perm (g : GameMap) (l : Link) (c : Int) :
    ((g.removeLink l).adj c).Perm
      (if c = l.node2 then
        (if c = l.node1 then (g.adj c).erase l.node2 else g.adj c).erase l.node1
       else if c = l.node1 then (g.adj c).erase l.node2 else g.adj c) := by
  unfold GameMap.adj
  rw [getAt_removeLink_nodes]
  cases hc : getAt g.nodes c with
  | none =>
    by_cases h2 : c = l.node2 <;> by_cases h1 : c = l.node1 <;> simp [h1, h2]
  | some n =>
    simp only [Option.map_some']
    by_cases h2 : c = l.node2
    · by_cases h1 : c = l.node1
      · simp only [if_pos h2, if_pos h1]
        exact (Node.removeLink_links_erase _ _).trans
          ((Node.removeLink_links_erase _ _).erase _)
      · simp only [if_pos h2, if_neg h1]
        exact Node.removeLink_links_erase _ _
    · by_cases h1 : c = l.node1
      · simp only [if_neg h2, if_pos h1]
        exact Node.removeLink_links_erase _ _
      · simp only [if_neg h2, if_neg h1]
        exact List.Perm.refl _

theorem adj_removeLink_other (g : GameMap) (l : Link) (c : Int) (h1 : c ≠ l.node1)
    (h2 : c ≠ l.node2) : (g.removeLink l).adj c = g.adj c := by
  unfold GameMap.adj
  rw [getAt_removeLink_nodes]
  simp only [if_neg h2, if_neg h1]
  cases getAt g.nodes c <;> rfl

/-! ## Consistency: the predicates on indices -/

theorem forall_fin_iff_valid {g : GameMap} (P : Int → Prop) :
    (∀ i : Fin g.nodes.length, P ((i.val : Nat) : Int)) ↔ ∀ a, ValidIndex g a → P a := by
  constructor
  · intro h a ha
    have h1 : a.toNat < g.nodes.length := by
      have := ha.1
      have := ha.2
      omega
    have h2 : ((a.toNat : Nat) : Int) = a := Int.toNat_of_nonneg ha.1
    have := h ⟨a.toNat, h1⟩
    rwa [h2] at this
  · intro h i
    exact h _ ⟨by omega, by have := i.isLt; omega⟩

theorem noSelfLoops_adj {g : GameMap} (h : NoSelfLoops g) (a : Int) : a ∉ g.adj a := by
  by_cases ha : ValidIndex g a
  · exact (forall_fin_iff_valid (fun a => a ∉ g.adj a)).1 h.2 a ha
  · rw [adj_of_not_valid ha]
    simp

theorem noDuplicateEdges_adj {g : GameMap} (h : NoDuplicateEdges g) (a : Int) :
    (g.adj a).Nodup := by
  by_cases ha : ValidIndex g a
  · exact (forall_fin_iff_valid (fun a => (g.adj a).Nodup)).1 h.2 a ha
  · rw [adj_of_not_valid ha]
    exact List.nodup_nil

theorem synchronized_iff {g : GameMap} :
    Synchronized g ↔ ∀ a, ValidIndex g a → ∀ b, ValidIndex g b →
      (b ∈ g.adj a ↔ a ∈ g.adj b) ∧ (b ∈ g.adj a ↔ ∃ l ∈ g.links, l.connects a b) := by
  unfold Synchronized
  rw [forall_fin_iff_valid (fun a => ∀ b : Fin g.nodes.length,
    (((b.val : Nat) : Int) ∈ g.adj a ↔ a ∈ g.adj b.val) ∧
    (((b.val : Nat) : Int) ∈ g.adj a ↔ ∃ l ∈ g.links, l.connects a b.val))]
  refine forall_congr' fun a => forall_congr' fun _ => ?_
  exact forall_fin_iff_valid (fun b =>
    (b ∈ g.adj a ↔ a ∈ g.adj b) ∧ (b ∈ g.adj a ↔ ∃ l ∈ g.links, l.connects a b))

theorem Link.joins_iff (l : Link) (a b : Int) :
    l.joins a b = true ↔ (l.node1 = a ∨ l.node1 = b) ∧ (l.node2 = a ∨ l.node2 = b) := by
  simp [Link.joins]

theorem Link.joins_iff_connects {l : Link} (hl : l.node1 ≠ l.node2) (a b : Int) :
    l.joins a b = true ↔ l.connects a b := by
  rw [Link.joins_iff]
  unfold Link.connects
  omega

theorem eraseP_eq_filter_of_pairwise {α : Type} (p : α → Bool) :
    ∀ xs : List α, xs.Pairwise (fun x y => ¬ (p x = true ∧ p y = true)) →
      xs.eraseP p = xs.filter (fun x => !p x)
  | [], _ => rfl
  | x :: xs, h => by
    obtain ⟨hx, hxs⟩ := List.pairwise_cons.1 h
    by_cases hp : p x = true
    · have hrest : ∀ y ∈ xs, (!p y) = true := by
        intro y hy
        have := hx y hy
        simp only [hp, true_and] at this
        simpa using this
      simp [List.eraseP_cons, hp, List.filter_cons, List.filter_eq_self.2 hrest]
    · simp [List.eraseP_cons, hp, List.filter_cons, eraseP_eq_filter_of_pairwise p xs hxs]

/-- The edge list after `removeLink`, on a graph without self-loops or
duplicate edges: the entries that do not connect the pair, in some order. -/
theorem links_removeLink_filter {g : GameMap} (hs : NoSelfLoops g) (hd : NoDuplicateEdges g)
    (a b : Int) :
    (g.removeLink ⟨a, b⟩).links.Perm (g.links.filter (fun l => ¬ l.connects a b)) := by
  refine (GameMap.removeLink_links_perm g ⟨a, b⟩).trans ?_
  rw [eraseP_eq_filter_of_pairwise]
  · refine List.Perm.of_eq (List.filter_congr ?_)
    intro l hl
    have := Link.joins_iff_connects (hs.1 l hl) a b
    by_cases hc : l.connects a b
    · simp [hc, this.2 hc]
    · have hj : l.joins a b = false := by
        simpa using fun h' => hc (this.1 h')
      simp [hc, hj]
  · refine List.Pairwise.imp_of_mem ?_ hd.1
    intro l m hl hm hlm ⟨h1, h2⟩
    have c1 := (Link.joins_iff_connects (hs.1 l hl) a b).1 h1
    have c2 := (Link.joins_iff_connects (hs.1 m hm) a b).1 h2
    apply hlm
    unfold Link.connects at c1 c2 ⊢
    omega

/-- The adjacency lists after `removeLink`, on a graph without duplicate
edges: the entries other than the removed one, in some order. -/
theorem adj_removeLink_filter {g : GameMap} (hd : NoDuplicateEdges g) (a b c : Int) :
    ((g.removeLink ⟨a, b⟩).adj c).Perm
      ((g.adj c).filter (fun x => ¬ ((c = a ∧ x = b) ∨ (c = b ∧ x = a)))) := by
  refine (adj_removeLink_perm g ⟨a, b⟩ c).trans ?_
  have hn := noDuplicateEdges_adj hd c
  simp only
  by_cases h2 : c = b
  · by_cases h1 : c = a
    · simp only [if_pos h2, if_pos h1]
      rw [hn.erase_eq_filter, (hn.filter _).erase_eq_filter, List.filter_filter]
      refine List.Perm.of_eq (List.filter_congr ?_)
      intro x _
      rw [Bool.eq_iff_iff]
      simp only [bne_iff_ne, Bool.and_eq_true, decide_eq_true_eq, ne_eq]
      omega
    · simp only [if_pos h2, if_neg h1]
      rw [hn.erase_eq_filter]
      refine List.Perm.of_eq (List.filter_congr ?_)
      intro x _
      rw [Bool.eq_iff_iff]
      simp only [bne_iff_ne, decide_eq_true_eq, ne_eq]
      omega
  · by_cases h1 : c = a
    · simp only [if_neg h2, if_pos h1]
      rw [hn.erase_eq_filter]
      refine List.Perm.of_eq (List.filter_congr ?_)
      intro x _
      rw [Bool.eq_iff_iff]
      simp only [bne_iff_ne, decide_eq_true_eq, ne_eq]
      omega
    · simp only [if_neg h2, if_neg h1]
      refine List.Perm.of_eq (List.filter_eq_self.2 ?_).symm
      intro x _
      simp [h1, h2]

theorem mem_adj_removeLink {g : GameMap} (hd : NoDuplicateEdges g) (a b c x : Int) :
    x ∈ (g.removeLink ⟨a, b⟩).adj c ↔
      x ∈ g.adj c ∧ ¬ ((c = a ∧ x = b) ∨ (c = b ∧ x = a)) := by
  rw [(adj_removeLink_filter hd a b c).mem_iff, List.mem_filter, decide_eq_true_eq]

theorem mem_links_removeLink {g : GameMap} (hs : NoSelfLoops g) (hd : NoDuplicateEdges g)
    (a b : Int) (l : Link) :
    l ∈ (g.removeLink ⟨a, b⟩).links ↔ l ∈ g.links ∧ ¬ l.connects a b := by
  rw [(links_removeLink_filter hs hd a b).mem_iff, List.mem_filter, decide_eq_true_eq]

/-! ## Removal of a link: the claims -/

/-- C5: on a graph without self-loops or duplicate edges whose adjacency lists
are synchronized with the edge list, and for a link `(a, b)` between valid
nodes, after `GameMap.removeLink` the adjacency list of `a` does not contain
`b`, that of `b` does not contain `a`, the edge list has no entry for `{a, b}`,
and every other edge-list entry and adjacency entry is still present (the edge
list and the two adjacency lists as multisets, the other adjacency lists
unchanged). -/
theorem removeLink_removes_edge (g : GameMap) (a b : Int) (hc : Consistent g)
    (_ha : ValidIndex g a) (_hb : ValidIndex g b) :
    b ∉ (g.removeLink ⟨a, b⟩).adj a ∧ a ∉ (g.removeLink ⟨a, b⟩).adj b ∧
      (∀ l ∈ (g.removeLink ⟨a, b⟩).links, ¬ l.connects a b) ∧
      (g.removeLink ⟨a, b⟩).links.Perm (g.links.filter (fun l => ¬ l.connects a b)) ∧
      ((g.removeLink ⟨a, b⟩).adj a).Perm ((g.adj a).filter (fun x => x ≠ b)) ∧
      ((g.removeLink ⟨a, b⟩).adj b).Perm ((g.adj b).filter (fun x => x ≠ a)) ∧
      ∀ c, c ≠ a → c ≠ b → (g.removeLink ⟨a, b⟩).adj c = g.adj c := by
  obtain ⟨hs, hd, _⟩ := hc
  refine ⟨?_, ?_, ?_, links_removeLink_filter hs hd a b, ?_, ?_, ?_⟩
  · rw [mem_adj_removeLink hd]
    simp
  · rw [mem_adj_removeLink hd]
    simp
  · intro l hl
    exact ((mem_links_removeLink hs hd a b l).1 hl).2
  · refine (adj_removeLink_filter hd a b a).trans (List.Perm.of_eq (List.filter_congr ?_))
    intro x hx
    have : x ≠ a := fun e => noSelfLoops_adj hs a (e ▸ hx)
    rw [Bool.eq_iff_iff]
    simp only [decide_eq_true_eq, ne_eq, true_and]
    omega
  · refine (adj_removeLink_filter hd a b b).trans (List.Perm.of_eq (List.filter_congr ?_))
    intro x hx
    have : x ≠ b := fun e => noSelfLoops_adj hs b (e ▸ hx)
    rw [Bool.eq_iff_iff]
    simp only [decide_eq_true_eq, ne_eq, true_and]
    omega
  · intro c h1 h2
    exact adj_removeLink_other g ⟨a, b⟩ c h1 h2

theorem removeLink_removes_edge_witness :
    (1 : Int) ∉ (scenarioA.removeLink ⟨2, 1⟩).adj 2 ∧ (2 : Int) ∉ (scenarioA.removeLink ⟨2, 1⟩).adj 1 ∧
      (∀ l ∈ (scenarioA.removeLink ⟨2, 1⟩).links, ¬ l.connects 2 1) ∧
      (scenarioA.removeLink ⟨2, 1⟩).links.Perm
        (scenarioA.links.filter (fun l => ¬ l.connects 2 1)) ∧
      ((scenarioA.removeLink ⟨2, 1⟩).adj 2).Perm ((scenarioA.adj 2).filter (fun x => x ≠ 1)) ∧
      ((scenarioA.removeLink ⟨2, 1⟩).adj 1).Perm ((scenarioA.adj 1).filter (fun x => x ≠ 2)) ∧
      ∀ c, c ≠ 2 → c ≠ 1 → (scenarioA.removeLink ⟨2, 1⟩).adj c = scenarioA.adj c :=
  removeLink_removes_edge scenarioA 2 1 (by decide) (by decide) (by decide)

/-- A link that is in neither adjacency list and that no entry of the edge
list matches is removed without any change. -/
theorem removeLink_eq_self {g : GameMap} {l : Link}
    (hlinks : ∀ m ∈ g.links, m.joins l.node1 l.node2 = false)
    (h1 : l.node2 ∉ g.adj l.node1) (h2 : l.node1 ∉ g.adj l.node2) :
    g.removeLink l = g := by
  have hn1 : modifyAt g.nodes l.node1 (fun n => n.removeLink l.node2) = g.nodes := by
    apply modifyAt_id_of
    intro n hn
    exact Node.removeLink_of_not_mem (adj_eq_of_getAt hn ▸ h1)
  have hn2 : modifyAt g.nodes l.node2 (fun n => n.removeLink l.node1) = g.nodes := by
    apply modifyAt_id_of
    intro n hn
    exact Node.removeLink_of_not_mem (adj_eq_of_getAt hn ▸ h2)
  unfold GameMap.removeLink
  simp only [hn1, hn2, firstIndex_none_of_forall hlinks]

theorem Link.joins_comm (m : Link) (a b : Int) : m.joins a b = m.joins b a := by
  rw [Bool.eq_iff_iff, Link.joins_iff, Link.joins_iff]
  omega

/-- C6: on a graph without self-loops or duplicate edges, calling
`GameMap.removeLink` a second time with the same logical edge (the same pair
of node indices, in either order) changes nothing: the map after two calls is
the map after one. -/
theorem removeLink_idempotent (g : GameMap) (l l' : Link) (hs : NoSelfLoops g)
    (hd : NoDuplicateEdges g) (hsame : l' = l ∨ l' = ⟨l.node2, l.node1⟩) :
    (g.removeLink l).removeLink l' = g.removeLink l := by
  have hlinks : ∀ m ∈ (g.removeLink l).links, m.joins l.node1 l.node2 = false := by
    intro m hm
    obtain ⟨hm1, hm2⟩ := (mem_links_removeLink hs hd l.node1 l.node2 m).1 hm
    have := Link.joins_iff_connects (hs.1 m hm1) l.node1 l.node2
    cases hj : m.joins l.node1 l.node2 with
    | false => rfl
    | true => exact absurd (this.1 hj) hm2
  have h1 : l.node2 ∉ (g.removeLink l).adj l.node1 := by
    have := mem_adj_removeLink hd l.node1 l.node2 l.node1 l.node2
    intro h
    have := (this.1 h).2
    simp at this
  have h2 : l.node1 ∉ (g.removeLink l).adj l.node2 := by
    have := mem_adj_removeLink hd l.node1 l.node2 l.node2 l.node1
    intro h
    have := (this.1 h).2
    simp at this
  rcases hsame with h | h
  · rw [h]
    exact removeLink_eq_self hlinks h1 h2
  · rw [h]
    refine removeLink_eq_self ?_ h2 h1
    intro m hm
    rw [Link.joins_comm]
    exact hlinks m hm

theorem removeLink_idempotent_witness :
    (scenarioA.removeLink ⟨2, 1⟩).removeLink ⟨1, 2⟩ = scenarioA.removeLink ⟨2, 1⟩ :=
  removeLink_idempotent scenarioA ⟨2, 1⟩ ⟨1, 2⟩ (by decide) (by decide) (Or.inr rfl)

/-! ## Consistency is an invariant -/

theorem consistent_iff {g : GameMap} :
    Consistent g ↔
      (∀ l ∈ g.links, l.node1 ≠ l.node2) ∧ (∀ a, ValidIndex g a → a ∉ g.adj a) ∧
      g.links.Pairwise (fun l m => ¬ m.connects l.node1 l.node2) ∧
      (∀ a, ValidIndex g a → (g.adj a).Nodup) ∧
      ∀ a, ValidIndex g a → ∀ b, ValidIndex g b →
        (b ∈ g.adj a ↔ a ∈ g.adj b) ∧ (b ∈ g.adj a ↔ ∃ l ∈ g.links, l.connects a b) := by
  unfold Consistent NoSelfLoops NoDuplicateEdges
  rw [synchronized_iff, forall_fin_iff_valid (fun a => a ∉ g.adj a),
    forall_fin_iff_valid (fun a => (g.adj a).Nodup)]
  tauto

/-- Consistency only depends on the adjacency lists, the edge list and the
size of the node table. -/
theorem Consistent.of_same {g g' : GameMap} (h : Consistent g)
    (hlen : g'.nodes.length = g.nodes.length) (hadj : ∀ c, g'.adj c = g.adj c)
    (hlinks : g'.links = g.links) : Consistent g' := by
  rw [consistent_iff] at h ⊢
  have hv : ∀ a, ValidIndex g' a ↔ ValidIndex g a := by
    intro a
    unfold ValidIndex
    rw [hlen]
  simp only [hv, hadj, hlinks]
  exact h

theorem getAt_modifyAt_links (xs : List Node) (i c : Int) (f : Node → Node)
    (hf : ∀ n, (f n).links = n.links) :
    (getAt (modifyAt xs i f) c).map Node.links = (getAt xs c).map Node.links := by
  rw [getAt_modifyAt]
  by_cases hc : c = i
  · subst hc
    cases getAt xs c <;> simp [hf]
  · rw [if_neg hc]

theorem adj_eq_map (g : GameMap) (c : Int) :
    g.adj c = ((getAt g.nodes c).map Node.links).getD [] := by
  unfold GameMap.adj
  cases getAt g.nodes c <;> rfl

theorem SetBobnetAgentIndex_same (g : GameMap) (i : Int) :
    (g.SetBobnetAgentIndex i).nodes.length = g.nodes.length ∧
      (∀ c, (g.SetBobnetAgentIndex i).adj c = g.adj c) ∧
      (g.SetBobnetAgentIndex i).links = g.links ∧
      (g.SetBobnetAgentIndex i).exits = g.exits := by
  unfold GameMap.SetBobnetAgentIndex
  refine ⟨?_, ?_, ?_, ?_⟩
  · simp only
    split <;> split <;> simp [length_modifyAt]
  · intro c
    rw [adj_eq_map, adj_eq_map]
    simp only
    split <;> split <;> simp [getAt_modifyAt_links]
  · simp only
    split <;> rfl
  · simp only
    split <;> rfl

theorem Consistent.after_removeLink {g : GameMap} (h : Consistent g) (l : Link) :
    Consistent (g.removeLink l) := by
  have hs := h.1
  have hd := h.2.1
  obtain ⟨c1, c2, c3, c4, c5⟩ := consistent_iff.1 h
  have hv : ∀ a, ValidIndex (g.removeLink l) a ↔ ValidIndex g a := by
    intro a
    unfold ValidIndex
    rw [(GameMap.removeLink_fixed g l).1]
  have hmem : ∀ c x, x ∈ (g.removeLink l).adj c ↔
      x ∈ g.adj c ∧ ¬ ((c = l.node1 ∧ x = l.node2) ∨ (c = l.node2 ∧ x = l.node1)) :=
    fun c x => mem_adj_removeLink hd l.node1 l.node2 c x
  have hlmem : ∀ m, m ∈ (g.removeLink l).links ↔
      m ∈ g.links ∧ ¬ m.connects l.node1 l.node2 :=
    fun m => mem_links_removeLink hs hd l.node1 l.node2 m
  rw [consistent_iff]
  refine ⟨?_, ?_, ?_, ?_, ?_⟩
  · intro m hm
    exact c1 m ((hlmem m).1 hm).1
  · intro a ha haa
    exact c2 a ((hv a).1 ha) ((hmem a a).1 haa).1
  · have hp := links_removeLink_filter hs hd l.node1 l.node2
    refine (List.Perm.pairwise_iff ?_ hp).2 (c3.filter _)
    intro x y hxy hyx
    apply hxy
    unfold Link.connects at hyx ⊢
    omega
  · intro a ha
    exact ((adj_removeLink_filter hd l.node1 l.node2 a).nodup_iff).2
      ((c4 a ((hv a).1 ha)).filter _)
  · intro a ha b hb
    obtain ⟨s1, s2⟩ := c5 a ((hv a).1 ha) b ((hv b).1 hb)
    rw [hmem a b, hmem b a]
    refine ⟨?_, ?_⟩
    · rw [s1]
      have : ((a = l.node1 ∧ b = l.node2) ∨ (a = l.node2 ∧ b = l.node1)) ↔
          ((b = l.node1 ∧ a = l.node2) ∨ (b = l.node2 ∧ a = l.node1)) := by omega
      rw [this]
    · rw [s2]
      constructor
      · rintro ⟨⟨m, hm, hmc⟩, hne⟩
        refine ⟨m, (hlmem m).2 ⟨hm, ?_⟩, hmc⟩
        intro hml
        apply hne
        unfold Link.connects at hmc hml
        omega
      · rintro ⟨m, hm, hmc⟩
        obtain ⟨hm1, hm2⟩ := (hlmem m).1 hm
        refine ⟨⟨m, hm1, hmc⟩, ?_⟩
        intro hne
        apply hm2
        unfold Link.connects at hmc ⊢
        omega

/-- C7: the consistency predicate (no self-loops, no duplicate edges, and for
all nodes `a`, `b`: `b` is in `a`'s adjacency list iff `a` is in `b`'s iff the
edge list has an entry for `{a, b}`) is an invariant: if it holds of a graph
it holds after `GameMap.removeLink` of every link between valid nodes, whether
or not the edge exists, and after `SetBobnetAgentIndex` of every integer. -/
theorem consistent_invariant (g : GameMap) (hc : Consistent g) :
    (∀ l : Link, ValidIndex g l.node1 → ValidIndex g l.node2 →
        Consistent (g.removeLink l)) ∧
      ∀ i : Int, Consistent (g.SetBobnetAgentIndex i) := by
  refine ⟨fun l _ _ => hc.after_removeLink l, fun i => ?_⟩
  obtain ⟨h1, h2, h3, _⟩ := SetBobnetAgentIndex_same g i
  exact hc.of_same h1 h2 h3

theorem consistent_invariant_witness :
    (∀ l : Link, ValidIndex scenarioA l.node1 → ValidIndex scenarioA l.node2 →
        Consistent (scenarioA.removeLink l)) ∧
      ∀ i : Int, Consistent (scenarioA.SetBobnetAgentIndex i) :=
  consistent_invariant scenarioA (by decide)

/-! ## The cut policy -/

theorem examinedPair_take (cur : List Int) (k : Nat) :
    examinedPair (cur.take (cur.length - 2)) k = examinedPair cur (k + 1) := by
  unfold examinedPair
  have hlen : (cur.take (cur.length - 2)).length = cur.length - 2 := by
    rw [List.length_take]
    omega
  rw [hlen]
  by_cases hk : 2 * k + 2 ≤ cur.length - 2
  · have hk' : 2 * (k + 1) + 2 ≤ cur.length := by omega
    rw [if_pos hk, if_pos hk']
    rw [List.getElem?_take_of_lt (by omega), List.getElem?_take_of_lt (by omega)]
    have e1 : cur.length - 2 - 1 - 2 * k = cur.length - 1 - 2 * (k + 1) := by omega
    have e2 : cur.length - 2 - 2 - 2 * k = cur.length - 2 - 2 * (k + 1) := by omega
    rw [e1, e2]
  · have hk' : ¬ 2 * (k + 1) + 2 ≤ cur.length := by omega
    rw [if_neg hk, if_neg hk']

theorem examinedPair_zero {cur : List Int} {a b : Int} (hlen : cur.length > 1)
    (ha : cur[cur.length - 1]? = some a) (hb : cur[cur.length - 2]? = some b) :
    examinedPair cur 0 = some (a, b) := by
  unfold examinedPair
  rw [if_pos (by omega)]
  simp only [Nat.mul_zero, Nat.sub_zero, ha, hb]

theorem examinedPair_length {p : List Int} {k : Nat} {xy : Int × Int}
    (h : examinedPair p k = some xy) : 2 * k + 2 ≤ p.length := by
  unfold examinedPair at h
  by_contra hk
  rw [if_neg hk] at h
  cases h

theorem find?_joins_eq {links : List Link} (hs : ∀ l ∈ links, l.node1 ≠ l.node2)
    (a b : Int) :
    links.find? (fun l => l.joins a b) = links.find? (fun l => decide (l.connects a b)) := by
  induction links with
  | nil => rfl
  | cons l ls ih =>
    have hl := Link.joins_iff_connects (hs l (List.mem_cons_self _ _)) a b
    have ih' := ih (fun m hm => hs m (List.mem_cons_of_mem _ hm))
    by_cases hc : l.connects a b
    · simp [List.find?_cons, hl.2 hc, hc]
    · have hj : l.joins a b = false := by
        cases hj : l.joins a b with
        | false => rfl
        | true => exact absurd (hl.1 hj) hc
      simp [List.find?_cons, hj, hc, ih']

theorem cutLoop_spec {links : List Link} (hs : ∀ l ∈ links, l.node1 ≠ l.node2) :
    ∀ (fuel : Nat) (cur : List Int), cur.length ≤ fuel →
      (∀ k x y l, examinedPair cur k = some (x, y) →
        (∀ j, j < k → ∀ x' y', examinedPair cur j = some (x', y') →
          ∀ m ∈ links, ¬ m.connects x' y') →
        links.find? (fun m => decide (m.connects x y)) = some l →
        cutLoop links fuel cur = .ok l) ∧
      ((∃ msg, cutLoop links fuel cur = .error msg) ↔
        ∀ k x y, examinedPair cur k = some (x, y) → ∀ m ∈ links, ¬ m.connects x y)
  | 0, cur, h => by
    have hnil : cur.length = 0 := by omega
    refine ⟨?_, ?_⟩
    · intro k x y l hp
      have := examinedPair_length hp
      omega
    · refine ⟨?_, fun _ => ⟨_, rfl⟩⟩
      intro _ k x y hp
      have := examinedPair_length hp
      omega
  | fuel + 1, cur, h => by
    unfold cutLoop
    by_cases hlen : cur.length > 1
    · simp only [hlen, if_true]
      have ha : cur[cur.length - 1]? = some cur[cur.length - 1] :=
        List.getElem?_eq_getElem (by omega)
      have hb : cur[cur.length - 2]? = some cur[cur.length - 2] :=
        List.getElem?_eq_getElem (by omega)
      have h0 := examinedPair_zero hlen ha hb
      rw [ha, hb]
      simp only
      rw [find?_joins_eq hs]
      cases hf : links.find? (fun m => decide (m.connects cur[cur.length - 1]
          cur[cur.length - 2])) with
      | some l0 =>
        have hl0 : l0 ∈ links := List.mem_of_find?_eq_some hf
        have hc0 : l0.connects cur[cur.length - 1] cur[cur.length - 2] := by
          simpa using List.find?_some hf
        simp only
        refine ⟨?_, ?_⟩
        · intro k x y l hp hprev hfind
          cases k with
          | zero =>
            rw [h0] at hp
            cases hp
            rw [hf] at hfind
            cases hfind
            rfl
          | succ k => exact absurd hc0 (hprev 0 (by omega) _ _ h0 l0 hl0)
        · constructor
          · rintro ⟨msg, hmsg⟩
            cases hmsg
          · intro hall
            exact absurd hc0 (hall 0 _ _ h0 l0 hl0)
      | none =>
        have hnone : ∀ m ∈ links, ¬ m.connects cur[cur.length - 1] cur[cur.length - 2] := by
          intro m hm
          simpa using List.find?_eq_none.1 hf m hm
        have hlen' : (cur.take (cur.length - 2)).length ≤ fuel := by
          rw [List.length_take]
          omega
        obtain ⟨ih1, ih2⟩ := cutLoop_spec hs fuel (cur.take (cur.length - 2)) hlen'
        simp only
        refine ⟨?_, ?_⟩
        · intro k x y l hp hprev hfind
          cases k with
          | zero =>
            rw [h0] at hp
            cases hp
            exact absurd (by simpa using List.find?_some hfind)
              (hnone l (List.mem_of_find?_eq_some hfind))
          | succ k =>
            refine ih1 k x y l (by rw [examinedPair_take]; exact hp) ?_ hfind
            intro j hj x' y' hp'
            rw [examinedPair_take] at hp'
            exact hprev (j + 1) (by omega) x' y' hp'
        · rw [ih2]
          constructor
          · intro hall k x y hp
            cases k with
            | zero =>
              rw [h0] at hp
              cases hp
              exact hnone
            | succ k =>
              exact hall k x y (by rw [examinedPair_take]; exact hp)
          · intro hall k x y hp
            rw [examinedPair_take] at hp
            exact hall (k + 1) x y hp
    · simp only [hlen, if_false]
      refine ⟨?_, ?_⟩
      · intro k x y l hp
        have := examinedPair_length hp
        omega
      · refine ⟨?_, fun _ => ⟨_, rfl⟩⟩
        intro _ k x y hp
        have := examinedPair_length hp
        omega

/-- C8: for an edge list without self-loops and a path `p`,
`getLinkToCutFromPath` examines the pairs `(p[n-1-2k], p[n-2-2k])` for
`k = 0, 1, 2, ...` while at least two nodes remain and returns the first entry
of the edge list, in list order, connecting the pair of the smallest `k` that
has a match; it returns an error if and only if the path has fewer than 2
nodes or none of those pairs has an entry in the edge list. -/
theorem getLinkToCutFromPath_spec (links : List Link) (p : List Int)
    (hs : ∀ l ∈ links, l.node1 ≠ l.node2) :
    (∀ k x y l, examinedPair p k = some (x, y) →
        (∀ j, j < k → ∀ x' y', examinedPair p j = some (x', y') →
          ∀ m ∈ links, ¬ m.connects x' y') →
        links.find? (fun m => decide (m.connects x y)) = some l →
        getLinkToCutFromPath links p = .ok l) ∧
      ((∃ msg, getLinkToCutFromPath links p = .error msg) ↔
        p.length < 2 ∨
          ∀ k x y, examinedPair p k = some (x, y) → ∀ m ∈ links, ¬ m.connects x y) := by
  obtain ⟨h1, h2⟩ := cutLoop_spec hs p.length p (le_refl _)
  unfold getLinkToCutFromPath
  by_cases hlen : p.length < 2
  · simp only [hlen, if_true]
    refine ⟨?_, ?_⟩
    · intro k x y l hp
      have := examinedPair_length hp
      omega
    · exact ⟨fun _ => Or.inl trivial, fun _ => ⟨_, rfl⟩⟩
  · simp only [hlen, if_false]
    refine ⟨h1, ?_⟩
    rw [h2]
    simp

theorem getLinkToCutFromPath_spec_witness :
    (∀ k x y l, examinedPair [0, 1, 2, 3] k = some (x, y) →
        (∀ j, j < k → ∀ x' y', examinedPair [0, 1, 2, 3] j = some (x', y') →
          ∀ m ∈ scenarioA.links, ¬ m.connects x' y') →
        scenarioA.links.find? (fun m => decide (m.connects x y)) = some l →
        getLinkToCutFromPath scenarioA.links [0, 1, 2, 3] = .ok l) ∧
      ((∃ msg, getLinkToCutFromPath scenarioA.links [0, 1, 2, 3] = .error msg) ↔
        [(0 : Int), 1, 2, 3].length < 2 ∨
          ∀ k x y, examinedPair [0, 1, 2, 3] k = some (x, y) →
            ∀ m ∈ scenarioA.links, ¬ m.connects x y) :=
  getLinkToCutFromPath_spec scenarioA.links [0, 1, 2, 3] (by decide)

theorem getShortestPath_self (g : GameMap) (a : Int) : getShortestPath g a a = .ok [] := by
  unfold getShortestPath
  rw [if_pos rfl]

/-- C9: `getLinkToCutFromNode` returns an error if and only if the node is
absent or its adjacency list is empty; otherwise it returns the link from that
node to the first entry of its adjacency list.  In particular, when the agent
stands on the sole exit, the nearest-exit path is empty and the round selects
that link of the agent's node, or no link if the node has none. -/
theorem getLinkToCutFromNode_spec (node : Option Node) :
    ((∃ msg, getLinkToCutFromNode node = .error msg) ↔
        node = none ∨ ∃ n, node = some n ∧ n.links = []) ∧
      (∀ n first rest, node = some n → n.links = first :: rest →
        getLinkToCutFromNode node = .ok ⟨n.index, first⟩) ∧
      ∀ g : GameMap, g.exits = [g.bobnetAgentIndex] →
        getAt g.nodes g.bobnetAgentIndex = node → node ≠ none →
        getBobnetPath (some g) g.exits = .ok (.ok []) ∧
          selectLink g g.exits = .ok (getLinkToCutFromNode node).toOption := by
  refine ⟨?_, ?_, ?_⟩
  · cases node with
    | none => exact ⟨fun _ => Or.inl rfl, fun _ => ⟨_, rfl⟩⟩
    | some n =>
      cases hl : n.links with
      | nil =>
        refine ⟨fun _ => Or.inr ⟨n, rfl, hl⟩,
          fun _ => ⟨"cannot get a link to cut, the node has no links", ?_⟩⟩
        simp only [getLinkToCutFromNode, hl]
      | cons first rest =>
        constructor
        · rintro ⟨msg, hmsg⟩
          simp [getLinkToCutFromNode, hl] at hmsg
        · rintro (h | ⟨m, hm, hml⟩)
          · cases h
          · cases hm
            rw [hl] at hml
            cases hml
  · intro n first rest hn hl
    subst hn
    simp only [getLinkToCutFromNode, hl]
  · intro g hexits hnode hne
    have hpath : getBobnetPath (some g) g.exits = .ok (.ok []) := by
      rw [hexits]
      simp [getBobnetPath, exitPaths, getShortestPath_self, collectPaths]
    refine ⟨hpath, ?_⟩
    cases node with
    | none => exact absurd rfl hne
    | some n =>
      unfold selectLink
      rw [hpath]
      simp only [getLinkToCutFromPath, List.length_nil, Nat.ofNat_pos, if_true, hnode]
      cases getLinkToCutFromNode (some n) <;> rfl

theorem getLinkToCutFromNode_spec_witness :
    getLinkToCutFromNode (some ⟨0, true, true, [1]⟩) = .ok ⟨0, 1⟩ ∧
      getBobnetPath (some agentOnSoleExit) agentOnSoleExit.exits = .ok (.ok []) ∧
      selectLink agentOnSoleExit agentOnSoleExit.exits =
        .ok (getLinkToCutFromNode (some ⟨0, true, true, [1]⟩)).toOption :=
  ⟨(getLinkToCutFromNode_spec (some ⟨0, true, true, [1]⟩)).2.1 _ 1 [] rfl rfl,
    (getLinkToCutFromNode_spec (some ⟨0, true, true, [1]⟩)).2.2 agentOnSoleExit rfl rfl
      (by simp)⟩

/-- C10 (as stated, refuted): on the edge list (0,1), (1,2), (2,3) and the
path `[0, 1, 2, 3]`, whose final pair has an entry, the link selected is the
stored entry (2,3) and `cutLink` emits `2 3`: the first index emitted is
`p[n-2] = 2`, not `p[n-1] = 3`. -/
theorem cutLink_order_counterexample :
    (∃ m ∈ scenarioA.links, m.connects 2 3) ∧
      examinedPair [0, 1, 2, 3] 0 = some (3, 2) ∧
      getLinkToCutFromPath scenarioA.links [0, 1, 2, 3] = .ok ⟨2, 3⟩ ∧
      (cutLink scenarioA ⟨2, 3⟩).2 = (2, 3) ∧
      (cutLink scenarioA ⟨2, 3⟩).2 ≠ (3, 2) :=
  ⟨by decide, by decide, by decide, by decide, by decide⟩

/-- C10 (amended): for every edge list and every path `p` of `n ≥ 2` nodes
whose final pair has an entry in the edge list, `getLinkToCutFromPath` selects
the first entry of the list with both endpoints among `p[n-1]`, `p[n-2]`, and
`cutLink` emits its endpoints in the order in which the entry stores them:
each is `p[n-1]` or `p[n-2]`, and unless the entry is a self-loop the line is
`(p[n-1], p[n-2])` or `(p[n-2], p[n-1])`.  For the fallback policy the line is
(the agent's node, the chosen neighbour). -/
theorem cutLink_emits_stored_order (g : GameMap) (links : List Link) (p : List Int)
    (x y : Int) (hp : examinedPair p 0 = some (x, y)) (hentry : ∃ m ∈ links, m.connects x y) :
    (∃ l, getLinkToCutFromPath links p = .ok l ∧
        links.find? (fun m => m.joins x y) = some l ∧
        (cutLink g l).2 = (l.node1, l.node2) ∧
        (l.node1 = x ∨ l.node1 = y) ∧ (l.node2 = x ∨ l.node2 = y) ∧
        (l.node1 ≠ l.node2 → (cutLink g l).2 = (x, y) ∨ (cutLink g l).2 = (y, x))) ∧
      ∀ (node : Node) (first : Int) (rest : List Int), node.links = first :: rest →
        ∃ l, getLinkToCutFromNode (some node) = .ok l ∧
          (cutLink g l).2 = (node.index, first) := by
  refine ⟨?_, ?_⟩
  · have hlen := examinedPair_length hp
    obtain ⟨m, hm, hmc⟩ := hentry
    have hmj : m.joins x y = true := by
      rw [Link.joins_iff]
      unfold Link.connects at hmc
      omega
    cases hf : links.find? (fun m => m.joins x y) with
    | none => exact absurd hmj (List.find?_eq_none.1 hf m hm)
    | some l =>
      have hlj : l.joins x y = true :=
        @List.find?_some _ (fun m => m.joins x y) l links hf
      rw [Link.joins_iff] at hlj
      refine ⟨l, ?_, rfl, rfl, hlj.1, hlj.2, ?_⟩
      · have ha : p[p.length - 1]? = some p[p.length - 1] :=
          List.getElem?_eq_getElem (by omega)
        have hb : p[p.length - 2]? = some p[p.length - 2] :=
          List.getElem?_eq_getElem (by omega)
        have h0 := examinedPair_zero (by omega) ha hb
        rw [hp] at h0
        simp only [Option.some.injEq, Prod.mk.injEq] at h0
        obtain ⟨rfl, rfl⟩ := h0
        unfold getLinkToCutFromPath
        rw [if_neg (by omega)]
        obtain ⟨f, hfuel⟩ : ∃ f, p.length = f + 1 := ⟨p.length - 1, by omega⟩
        rw [show cutLoop links p.length p = cutLoop links (f + 1) p by rw [hfuel]]
        unfold cutLoop
        simp only [show p.length > 1 by omega, if_true, ha, hb, hf]
      · intro hne
        simp only [cutLink, Prod.mk.injEq]
        omega
  · intro node first rest hl
    refine ⟨⟨node.index, first⟩, ?_, rfl⟩
    simp only [getLinkToCutFromNode, hl]

theorem cutLink_emits_stored_order_witness :
    (∃ l, getLinkToCutFromPath scenarioA.links [0, 1, 2, 3] = .ok l ∧
        scenarioA.links.find? (fun m => m.joins 3 2) = some l ∧
        (cutLink scenarioA l).2 = (l.node1, l.node2) ∧
        (l.node1 = 3 ∨ l.node1 = 2) ∧ (l.node2 = 3 ∨ l.node2 = 2) ∧
        (l.node1 ≠ l.node2 →
          (cutLink scenarioA l).2 = (3, 2) ∨ (cutLink scenarioA l).2 = (2, 3))) ∧
      ∀ (node : Node) (first : Int) (rest : List Int), node.links = first :: rest →
        ∃ l, getLinkToCutFromNode (some node) = .ok l ∧
          (cutLink scenarioA l).2 = (node.index, first) :=
  cutLink_emits_stored_order scenarioA scenarioA.links [0, 1, 2, 3] 3 2 (by decide)
    ⟨⟨2, 3⟩, by decide, by decide⟩

/-! ## The agent index -/

theorem getAt_fin {α : Type} (xs : List α) (i : Fin xs.length) :
    getAt xs ((i.val : Nat) : Int) = some (xs.get i) := by
  unfold getAt
  rw [if_neg (by omega)]
  simp

theorem agentFlagged_iff {g : GameMap} :
    AgentFlagged g ↔ ∀ k n, getAt g.nodes k = some n →
      (n.isBobnetAgentPresent = true ↔ k = g.bobnetAgentIndex) := by
  constructor
  · intro h k n hk
    have hr := getAt_range hk
    have h1 : k.toNat < g.nodes.length := by omega
    have h2 : ((k.toNat : Nat) : Int) = k := Int.toNat_of_nonneg hr.1
    have := h ⟨k.toNat, h1⟩
    have hg := getAt_fin g.nodes ⟨k.toNat, h1⟩
    simp only [h2] at this hg
    rw [hk] at hg
    cases hg
    exact this
  · intro h i
    exact h _ _ (getAt_fin g.nodes i)

/-- The node at position `c` after `SetBobnetAgentIndex`. -/
theorem getAt_SetBobnetAgentIndex (g : GameMap) (index c : Int) :
    getAt (g.SetBobnetAgentIndex index).nodes c =
      (getAt g.nodes c).map (fun n =>
        if ValidIndex g index ∧ c = index then { n with isBobnetAgentPresent := true }
        else if ValidIndex g g.bobnetAgentIndex ∧ c = g.bobnetAgentIndex then
          { n with isBobnetAgentPresent := false }
        else n) := by
  unfold GameMap.SetBobnetAgentIndex ValidIndex
  by_cases hi : 0 ≤ index ∧ index < (g.nodes.length : Int)
  · by_cases ho : 0 ≤ g.bobnetAgentIndex ∧ g.bobnetAgentIndex < (g.nodes.length : Int)
    · simp only [ge_iff_le, hi, ho, and_self, if_true, true_and, getAt_modifyAt]
      by_cases h1 : c = index
      · subst h1
        by_cases h2 : c = g.bobnetAgentIndex
        · simp only [h2, if_true]
          cases getAt g.nodes g.bobnetAgentIndex <;> simp
        · simp only [h2, if_true, if_false]
      · by_cases h2 : c = g.bobnetAgentIndex
        · subst h2
          simp only [h1, if_true, if_false]
        · simp only [h1, h2, if_false]
          cases getAt g.nodes c <;> simp
    · simp only [ge_iff_le, hi, ho, and_self, if_true, if_false, true_and, false_and,
        getAt_modifyAt]
      by_cases h1 : c = index
      · subst h1
        simp only [if_true]
      · simp only [h1, if_false]
        cases getAt g.nodes c <;> simp
  · by_cases ho : 0 ≤ g.bobnetAgentIndex ∧ g.bobnetAgentIndex < (g.nodes.length : Int)
    · simp only [ge_iff_le, hi, ho, and_self, if_true, if_false, true_and, false_and,
        getAt_modifyAt]
      by_cases h2 : c = g.bobnetAgentIndex
      · subst h2
        simp only [if_true]
      · simp only [h2, if_false]
        cases getAt g.nodes c <;> simp
    · simp only [ge_iff_le, hi, ho, if_false, false_and]
      cases getAt g.nodes c <;> simp

theorem SetBobnetAgentIndex_index (g : GameMap) (index : Int) :
    (g.SetBobnetAgentIndex index).bobnetAgentIndex =
      if 0 ≤ index ∧ index < (g.nodes.length : Int) then index else -1 := by
  unfold GameMap.SetBobnetAgentIndex
  by_cases hi : 0 ≤ index ∧ index < (g.nodes.length : Int)
  · simp only [ge_iff_le, hi, and_self, if_true]
  · simp only [ge_iff_le, hi, if_false]

/-- C11: on a graph in which the agent flag is set on node `k` exactly when
`k` is the recorded agent index, after `SetBobnetAgentIndex(index)` the
recorded agent index is `index` if `0 ≤ index < nodeCount` and `-1` otherwise,
the agent flag is set on exactly the node with the recorded index (on no node
when it is `-1`, so on at most one node), and the node count, the adjacency
lists, the edge list, the exit set, the node indices and the exit flags are
unchanged. -/
theorem SetBobnetAgentIndex_spec (g : GameMap) (index : Int) (h : AgentFlagged g) :
    (g.SetBobnetAgentIndex index).bobnetAgentIndex =
        (if 0 ≤ index ∧ index < (g.nodes.length : Int) then index else -1) ∧
      AgentFlagged (g.SetBobnetAgentIndex index) ∧
      (∀ j k n m, getAt (g.SetBobnetAgentIndex index).nodes j = some n →
        getAt (g.SetBobnetAgentIndex index).nodes k = some m →
        n.isBobnetAgentPresent = true → m.isBobnetAgentPresent = true → j = k) ∧
      (g.SetBobnetAgentIndex index).nodes.length = g.nodes.length ∧
      (∀ c, (g.SetBobnetAgentIndex index).adj c = g.adj c) ∧
      (g.SetBobnetAgentIndex index).links = g.links ∧
      (g.SetBobnetAgentIndex index).exits = g.exits ∧
      ∀ c, (getAt (g.SetBobnetAgentIndex index).nodes c).map (fun n => (n.index, n.isExit)) =
        (getAt g.nodes c).map (fun n => (n.index, n.isExit)) := by
  obtain ⟨hlen, hadj, hlinks, hexits⟩ := SetBobnetAgentIndex_same g index
  have hflag : AgentFlagged (g.SetBobnetAgentIndex index) := by
    rw [agentFlagged_iff] at h ⊢
    intro k n hk
    rw [getAt_SetBobnetAgentIndex] at hk
    rw [SetBobnetAgentIndex_index]
    cases hg : getAt g.nodes k with
    | none => rw [hg] at hk; cases hk
    | some n0 =>
      have hr := getAt_range hg
      have h0 := h k n0 hg
      rw [hg] at hk
      simp only [Option.map_some', Option.some.injEq] at hk
      unfold ValidIndex at hk
      by_cases hi : 0 ≤ index ∧ index < (g.nodes.length : Int)
      · rw [if_pos hi]
        by_cases h1 : k = index
        · rw [if_pos ⟨hi, h1⟩] at hk
          subst hk
          simp [h1]
        · rw [if_neg (fun hh => h1 hh.2)] at hk
          by_cases h2 : k = g.bobnetAgentIndex
          · rw [if_pos ⟨h2 ▸ hr, h2⟩] at hk
            subst hk
            simp [h1]
          · rw [if_neg (fun hh => h2 hh.2)] at hk
            subst hk
            rw [h0]
            simp [h1, h2]
      · rw [if_neg hi]
        rw [if_neg (fun hh => hi hh.1)] at hk
        have hk1 : k ≠ -1 := by omega
        by_cases h2 : k = g.bobnetAgentIndex
        · rw [if_pos ⟨h2 ▸ hr, h2⟩] at hk
          subst hk
          simp [hk1]
        · rw [if_neg (fun hh => h2 hh.2)] at hk
          subst hk
          rw [h0]
          simp [hk1, h2]
  refine ⟨SetBobnetAgentIndex_index g index, hflag, ?_, hlen, hadj, hlinks, hexits, ?_⟩
  · intro j k n m hj hk hn hm
    have hf := agentFlagged_iff.1 hflag
    rw [(hf j n hj).1 hn, (hf k m hk).1 hm]
  · intro c
    rw [getAt_SetBobnetAgentIndex]
    cases getAt g.nodes c with
    | none => rfl
    | some n =>
      simp only [Option.map_some', Option.some.injEq]
      split
      · rfl
      · split <;> rfl

theorem SetBobnetAgentIndex_spec_witness :
    (scenarioA.SetBobnetAgentIndex 2).bobnetAgentIndex =
        (if 0 ≤ (2 : Int) ∧ (2 : Int) < (scenarioA.nodes.length : Int) then 2 else -1) ∧
      AgentFlagged (scenarioA.SetBobnetAgentIndex 2) ∧
      (∀ j k n m, getAt (scenarioA.SetBobnetAgentIndex 2).nodes j = some n →
        getAt (scenarioA.SetBobnetAgentIndex 2).nodes k = some m →
        n.isBobnetAgentPresent = true → m.isBobnetAgentPresent = true → j = k) ∧
      (scenarioA.SetBobnetAgentIndex 2).nodes.length = scenarioA.nodes.length ∧
      (∀ c, (scenarioA.SetBobnetAgentIndex 2).adj c = scenarioA.adj c) ∧
      (scenarioA.SetBobnetAgentIndex 2).links = scenarioA.links ∧
      (scenarioA.SetBobnetAgentIndex 2).exits = scenarioA.exits ∧
      ∀ c, (getAt (scenarioA.SetBobnetAgentIndex 2).nodes c).map
          (fun n => (n.index, n.isExit)) =
        (getAt scenarioA.nodes c).map (fun n => (n.index, n.isExit)) :=
  SetBobnetAgentIndex_spec scenarioA 2 (by decide)

/-! ## An agent index out of range -/

theorem getShortestPath_from_unknown (g : GameMap) (e : Int) (he : 0 ≤ e) :
    getShortestPath g (-1) e = .error .indexOutOfRange := by
  have hne : (-1 : Int) ≠ e := by omega
  have hnone : getAt g.nodes (-1) = none := by
    unfold getAt
    rw [if_pos (by omega)]
  unfold getShortestPath
  rw [if_neg hne]
  simp only [searchLoop, hnone]

/-- C12 (the code at the failing inputs): on a map with at least one exit,
all exits being valid indices, after `SetBobnetAgentIndex` of an index outside
`[0, nodeCount)` the recorded index is `-1`, the search started from it reads
`gameMap.nodes[-1]`, and both `getBobnetPath` and the whole round end in the
index-out-of-range panic instead of completing. -/
theorem getBobnetPath_unknown_agent_panics (g : GameMap) (index : Int) (arrival : List Int)
    (hidx : ¬ (0 ≤ index ∧ index < (g.nodes.length : Int)))
    (hexits : ∀ x ∈ g.exits, ValidIndex g x) (hne : g.exits ≠ [])
    (harr : arrival.Perm g.exits) :
    (g.SetBobnetAgentIndex index).bobnetAgentIndex = -1 ∧
      getBobnetPath (some (g.SetBobnetAgentIndex index)) arrival = .error .indexOutOfRange ∧
      playRound g index arrival = .error .indexOutOfRange := by
  have hagent : (g.SetBobnetAgentIndex index).bobnetAgentIndex = -1 := by
    rw [SetBobnetAgentIndex_index, if_neg hidx]
  have hpath :
      getBobnetPath (some (g.SetBobnetAgentIndex index)) arrival = .error .indexOutOfRange := by
    cases arrival with
    | nil => exact absurd (harr.symm.eq_nil) hne
    | cons x rest =>
      have hx : 0 ≤ x := (hexits x (harr.mem_iff.1 (List.mem_cons_self _ _))).1
      simp only [getBobnetPath, exitPaths, hagent, getShortestPath_from_unknown _ x hx]
  refine ⟨hagent, hpath, ?_⟩
  simp only [playRound, selectLink, hpath]

theorem getBobnetPath_unknown_agent_panics_witness :
    (scenarioA.SetBobnetAgentIndex 7).bobnetAgentIndex = -1 ∧
      getBobnetPath (some (scenarioA.SetBobnetAgentIndex 7)) [3] = .error .indexOutOfRange ∧
      playRound scenarioA 7 [3] = .error .indexOutOfRange :=
  getBobnetPath_unknown_agent_panics scenarioA 7 [3] (by decide) (by decide) (by decide)
    (List.Perm.refl _)

/-! ## Removal of a link that is not there -/

/-- C13 (as stated, refuted): no entry of the edge list connects the pair
`{0, 1}`, yet `removeLink` of the link (0,1) removes the self-loop (0,0) from
the edge list of `selfLoopMap`, and empties the adjacency list of node 0 of
`staleAdjacency`. -/
theorem removeLink_absent_counterexample :
    buildMap 2 [(0, 0)] [] = .ok selfLoopMap ∧
      (∀ m ∈ selfLoopMap.links, ¬ m.connects 0 1) ∧
      (selfLoopMap.removeLink ⟨0, 1⟩).links = [] ∧ selfLoopMap.links = [⟨0, 0⟩] ∧
      (∀ m ∈ staleAdjacency.links, ¬ m.connects 0 1) ∧
      (staleAdjacency.removeLink ⟨0, 1⟩).adj 0 = [] ∧ staleAdjacency.adj 0 = [1] :=
  ⟨by decide, by decide, by decide, by decide, by decide, by decide, by decide⟩

/-- C13 (amended): on a graph state whose edge list has no self-loops and in
which neither endpoint's adjacency list holds the other endpoint, for a link
whose unordered pair has no entry in the edge list, `GameMap.removeLink` is a
no-op: it returns the very same map (edge list, adjacency lists and all other
fields), and the operation has no failing outcome. -/
theorem removeLink_absent_noop (g : GameMap) (l : Link)
    (hs : ∀ m ∈ g.links, m.node1 ≠ m.node2)
    (h1 : l.node2 ∉ g.adj l.node1) (h2 : l.node1 ∉ g.adj l.node2)
    (hno : ∀ m ∈ g.links, ¬ m.connects l.node1 l.node2) :
    g.removeLink l = g := by
  refine removeLink_eq_self ?_ h1 h2
  intro m hm
  have := Link.joins_iff_connects (hs m hm) l.node1 l.node2
  cases hj : m.joins l.node1 l.node2 with
  | false => rfl
  | true => exact absurd (this.1 hj) (hno m hm)

theorem removeLink_absent_noop_witness : scenarioA.removeLink ⟨0, 2⟩ = scenarioA :=
  removeLink_absent_noop scenarioA ⟨0, 2⟩ (by decide) (by decide) (by decide) (by decide)

/-! ## The receiving loop -/

/-- The path the receiving loop returns for the received `paths`: empty iff
all of them are, otherwise a shortest one among the non-empty ones. -/
theorem collectPaths_result (paths : List (List Int)) :
    ((collectPaths none paths).getD [] = [] ↔ ∀ p ∈ paths, p = []) ∧
      ((collectPaths none paths).getD [] ≠ [] →
        (collectPaths none paths).getD [] ∈ paths ∧
        ∀ p ∈ paths, p ≠ [] → ((collectPaths none paths).getD []).length ≤ p.length) := by
  obtain ⟨hnone, hsome⟩ := collectPaths_spec paths none
  cases hc : collectPaths none paths with
  | none =>
    simp only [Option.getD_none, true_iff, ne_eq, not_true_eq_false, false_implies, and_true]
    exact (hnone hc).2
  | some q =>
    obtain ⟨hq, -, hmin⟩ := hsome q hc
    obtain ⟨hqmem, hqne⟩ := hq.resolve_left (by simp)
    simp only [Option.getD_some]
    refine ⟨⟨fun h => absurd h hqne, fun h => absurd (h q hqmem) hqne⟩, fun _ => ⟨hqmem, hmin⟩⟩

/-- C15: for every list of per-exit results received by `getBobnetPath`, in
the order received, the returned path is empty (nil) if and only if every
received path is empty, which includes the case of zero exits; otherwise it is
one of the non-empty received paths and no non-empty received path has fewer
nodes; and when the graph is present the function returns that path with no
error. -/
theorem getBobnetPath_collects (paths : List (List Int)) :
    ((collectPaths none paths).getD [] = [] ↔ ∀ p ∈ paths, p = []) ∧
      ((collectPaths none paths).getD [] ≠ [] →
        (collectPaths none paths).getD [] ∈ paths ∧
        ∀ p ∈ paths, p ≠ [] → ((collectPaths none paths).getD []).length ≤ p.length) ∧
      (∀ (g : GameMap) (arrival : List Int), exitPaths g arrival = .ok paths →
        getBobnetPath (some g) arrival = .ok (.ok ((collectPaths none paths).getD []))) ∧
      ∀ g : GameMap, getBobnetPath (some g) [] = .ok (.ok []) := by
  refine ⟨(collectPaths_result paths).1, (collectPaths_result paths).2, ?_, ?_⟩
  · intro g arrival h
    simp only [getBobnetPath, h]
  · intro g
    simp only [getBobnetPath, exitPaths, collectPaths, Option.getD_none]

theorem getBobnetPath_collects_witness :
    (collectPaths none [[0, 1, 2], [], [0, 3]]).getD [] ∈ [[0, 1, 2], [], [(0 : Int), 3]] ∧
      (∀ p ∈ [[0, 1, 2], [], [(0 : Int), 3]], p ≠ [] →
        ((collectPaths none [[0, 1, 2], [], [0, 3]]).getD []).length ≤ p.length) ∧
      getBobnetPath (some scenarioA) [3] =
        .ok (.ok ((collectPaths none [[0, 1, 2, 3]]).getD [])) :=
  ⟨((getBobnetPath_collects [[0, 1, 2], [], [0, 3]]).2.1 (by decide)).1,
    ((getBobnetPath_collects [[0, 1, 2], [], [0, 3]]).2.1 (by decide)).2,
    (getBobnetPath_collects [[0, 1, 2, 3]]).2.2.1 scenarioA [3] (by decide)⟩

theorem exitPaths_eq_ok_iff (g : GameMap) :
    ∀ (arrival : List Int) (paths : List (List Int)),
      exitPaths g arrival = .ok paths ↔
        List.Forall₂ (fun x p => getShortestPath g g.bobnetAgentIndex x = .ok p) arrival paths
  | [], paths => by
    cases paths with
    | nil => simp [exitPaths]
    | cons p ps => simp [exitPaths]
  | x :: rest, paths => by
    unfold exitPaths
    cases hx : getShortestPath g g.bobnetAgentIndex x with
    | error e =>
      simp only
      constructor
      · intro h; cases h
      · intro h
        cases h with
        | cons h1 _ => rw [hx] at h1; cases h1
    | ok p =>
      cases hr : exitPaths g rest with
      | error e =>
        simp only
        constructor
        · intro h; cases h
        · intro h
          cases h with
          | cons _ h2 =>
            rw [← exitPaths_eq_ok_iff g rest _, hr] at h2
            cases h2
      | ok ps =>
        simp only
        constructor
        · intro h
          cases h
          exact List.Forall₂.cons hx ((exitPaths_eq_ok_iff g rest ps).1 hr)
        · intro h
          cases h with
          | cons h1 h2 =>
            rw [hx] at h1
            cases h1
            rw [← exitPaths_eq_ok_iff g rest _, hr] at h2
            cases h2
            rfl

theorem collectPaths_perm {paths paths' : List (List Int)} (h : paths.Perm paths') :
    ((collectPaths none paths).getD []).length = ((collectPaths none paths').getD []).length ∧
      ((collectPaths none paths).getD [] = [] ↔ (collectPaths none paths').getD [] = []) := by
  obtain ⟨e1, m1⟩ := collectPaths_result paths
  obtain ⟨e2, m2⟩ := collectPaths_result paths'
  have hiff : (collectPaths none paths).getD [] = [] ↔ (collectPaths none paths').getD [] = [] := by
    rw [e1, e2]
    exact ⟨fun hh p hp => hh p (h.mem_iff.2 hp), fun hh p hp => hh p (h.mem_iff.1 hp)⟩
  refine ⟨?_, hiff⟩
  by_cases hnil : (collectPaths none paths).getD [] = []
  · rw [hnil, hiff.1 hnil]
  · have hnil' : (collectPaths none paths').getD [] ≠ [] := fun hh => hnil (hiff.2 hh)
    obtain ⟨a1, a2⟩ := m1 hnil
    obtain ⟨b1, b2⟩ := m2 hnil'
    have l1 := a2 _ (h.mem_iff.2 b1) hnil'
    have l2 := b2 _ (h.mem_iff.1 a1) hnil
    omega

/-- C16: the order in which the per-exit results arrive does not affect the
outcome: for every list of per-exit paths and every permutation of it, the
receiving loop returns paths with the same number of nodes, and the result is
empty for one order iff it is empty for the other; hence `getBobnetPath` on
two arrival orders of the same exits returns paths of the same length. -/
theorem collectPaths_order_irrelevant (paths paths' : List (List Int))
    (h : paths.Perm paths') :
    ((collectPaths none paths).getD []).length = ((collectPaths none paths').getD []).length ∧
      ((collectPaths none paths).getD [] = [] ↔ (collectPaths none paths').getD [] = []) ∧
      ∀ (g : GameMap) (arrival arrival' : List Int), arrival.Perm arrival' →
        exitPaths g arrival = .ok paths →
        ∃ p p', getBobnetPath (some g) arrival = .ok (.ok p) ∧
          getBobnetPath (some g) arrival' = .ok (.ok p') ∧
          p.length = p'.length ∧ (p = [] ↔ p' = []) := by
  refine ⟨(collectPaths_perm h).1, (collectPaths_perm h).2, ?_⟩
  intro g arrival arrival' harr hpaths
  obtain ⟨ps, hps, hperm⟩ :=
    List.perm_comp_forall₂ harr.symm ((exitPaths_eq_ok_iff g arrival paths).1 hpaths)
  have hpaths' := (exitPaths_eq_ok_iff g arrival' ps).2 hps
  refine ⟨_, _, ?_, ?_, (collectPaths_perm hperm.symm).1, (collectPaths_perm hperm.symm).2⟩
  · simp only [getBobnetPath, hpaths]
  · simp only [getBobnetPath, hpaths']

theorem collectPaths_order_irrelevant_witness :
    ((collectPaths none [[0, 1, 2], [0, 3]]).getD []).length =
        ((collectPaths none [[0, 3], [0, 1, 2]]).getD []).length ∧
      ((collectPaths none [[0, 1, 2], [0, 3]]).getD [] = [] ↔
        (collectPaths none [[0, 3], [0, 1, 2]]).getD [] = []) ∧
      ∀ (g : GameMap) (arrival arrival' : List Int), arrival.Perm arrival' →
        exitPaths g arrival = .ok [[0, 1, 2], [0, 3]] →
        ∃ p p', getBobnetPath (some g) arrival = .ok (.ok p) ∧
          getBobnetPath (some g) arrival' = .ok (.ok p') ∧
          p.length = p'.length ∧ (p = [] ↔ p' = []) :=
  collectPaths_order_irrelevant [[0, 1, 2], [0, 3]] [[0, 3], [0, 1, 2]] (List.Perm.swap _ _ _)

/-! ## Scenario A -/

/-- C17: scenario A.  The map built from 4 nodes, the links (0,1), (1,2),
(2,3) in that order and the exit 3, with the agent set at node 0, is
`scenarioA`; on it `getBobnetPath` returns exactly the path `[0, 1, 2, 3]` with
no error, and `getLinkToCutFromPath` on its edge list and that path returns
the edge-list entry connecting nodes 2 and 3. -/
theorem scenarioA_cuts_last_edge :
    (buildMap 4 [(0, 1), (1, 2), (2, 3)] [3]).map (fun g => g.SetBobnetAgentIndex 0) =
        .ok scenarioA ∧
      getBobnetPath (some scenarioA) scenarioA.exits = .ok (.ok [0, 1, 2, 3]) ∧
      getLinkToCutFromPath scenarioA.links [0, 1, 2, 3] = .ok ⟨2, 3⟩ ∧
      (⟨2, 3⟩ : Link) ∈ scenarioA.links ∧ (⟨2, 3⟩ : Link).connects 2 3 ∧
      playRound scenarioA 0 scenarioA.exits = .ok (scenarioA.removeLink ⟨2, 3⟩, some (2, 3)) :=
  ⟨by decide, by decide, by decide, by decide, by decide, by decide⟩

/-! ## Scenario C: an agent without links -/

theorem getShortestPath_isolated {g : GameMap} {a e : Int} (ha : ValidIndex g a)
    (hiso : g.adj a = []) (he : ValidIndex g e) : getShortestPath g a e = .ok [] := by
  by_cases hae : a = e
  · subst hae
    exact getShortestPath_self g a
  · obtain ⟨n, hn⟩ := getAt_of_range ha.1 ha.2
    have hlinks : n.links = [] := by rw [← adj_eq_of_getAt hn]; exact hiso
    obtain ⟨p, hp⟩ := @getAt_of_range _ (List.replicate g.nodes.length (-1 : Int)) e he.1
      (by rw [List.length_replicate]; exact he.2)
    have hp1 : p = -1 := getAt_replicate hp
    subst hp1
    unfold getShortestPath
    rw [if_neg hae]
    simp only [searchLoop, hn, hlinks, scanLinks, List.length_nil, if_true, hp]

theorem selectLink_isolated {g : GameMap} {arrival : List Int}
    (ha : ValidIndex g g.bobnetAgentIndex) (hiso : g.adj g.bobnetAgentIndex = [])
    (hexits : ∀ x ∈ arrival, ValidIndex g x) :
    getBobnetPath (some g) arrival = .ok (.ok []) ∧
      (∃ msg, getLinkToCutFromNode (getAt g.nodes g.bobnetAgentIndex) = .error msg) ∧
      selectLink g arrival = .ok none := by
  have hall : ∀ x ∈ arrival, ∃ p, getShortestPath g g.bobnetAgentIndex x = .ok p :=
    fun x hx => ⟨[], getShortestPath_isolated ha hiso (hexits x hx)⟩
  obtain ⟨paths, hpaths, hfrom, _⟩ := exitPaths_ok arrival hall
  have hnil : ∀ p ∈ paths, p = [] := by
    intro p hp
    obtain ⟨x, hx, hxp⟩ := hfrom p hp
    rw [getShortestPath_isolated ha hiso (hexits x hx)] at hxp
    cases hxp
    rfl
  have hpath : getBobnetPath (some g) arrival = .ok (.ok []) := by
    simp only [getBobnetPath, hpaths, (collectPaths_result paths).1.2 hnil]
  obtain ⟨n, hn⟩ := getAt_of_range ha.1 ha.2
  have hlinks : n.links = [] := by rw [← adj_eq_of_getAt hn]; exact hiso
  have hnode : getLinkToCutFromNode (some n) =
      .error "cannot get a link to cut, the node has no links" := by
    simp only [getLinkToCutFromNode, hlinks]
  refine ⟨hpath, ⟨_, hn ▸ hnode⟩, ?_⟩
  unfold selectLink
  rw [hpath]
  simp only [getLinkToCutFromPath, List.length_nil, Nat.ofNat_pos, if_true, hn, hnode]

/-- C18: scenario C.  On a graph with a valid agent index whose agent node has
an empty adjacency list, and valid exits, `getBobnetPath` returns the empty
path with no error, `getLinkToCutFromPath` on that path returns an error,
`getLinkToCutFromNode` on the agent's node returns an error, so the round
selects no link, prints nothing and leaves the edge list and the adjacency
lists as they were. -/
theorem isolated_agent_round (g : GameMap) (arrival : List Int) (_hwf : WellFormed g)
    (ha : ValidIndex g g.bobnetAgentIndex) (hiso : g.adj g.bobnetAgentIndex = [])
    (hexits : ∀ x ∈ g.exits, ValidIndex g x) (harr : arrival.Perm g.exits) :
    getBobnetPath (some g) arrival = .ok (.ok []) ∧
      (∃ msg, getLinkToCutFromPath g.links [] = .error msg) ∧
      (∃ msg, getLinkToCutFromNode (getAt g.nodes g.bobnetAgentIndex) = .error msg) ∧
      selectLink g arrival = .ok none ∧
      playRound g g.bobnetAgentIndex arrival =
        .ok (g.SetBobnetAgentIndex g.bobnetAgentIndex, none) ∧
      (g.SetBobnetAgentIndex g.bobnetAgentIndex).links = g.links ∧
      ∀ c, (g.SetBobnetAgentIndex g.bobnetAgentIndex).adj c = g.adj c := by
  have hvalid : ∀ x ∈ arrival, ValidIndex g x := fun x hx => hexits x (harr.mem_iff.1 hx)
  obtain ⟨h1, h2, h3⟩ := selectLink_isolated ha hiso hvalid
  obtain ⟨hlen, hadj, hlinks, _⟩ := SetBobnetAgentIndex_same g g.bobnetAgentIndex
  have hidx : (g.SetBobnetAgentIndex g.bobnetAgentIndex).bobnetAgentIndex =
      g.bobnetAgentIndex := by
    rw [SetBobnetAgentIndex_index]
    exact if_pos ha
  have hv : ∀ x, ValidIndex (g.SetBobnetAgentIndex g.bobnetAgentIndex) x ↔ ValidIndex g x := by
    intro x
    unfold ValidIndex
    rw [hlen]
  have h3' : selectLink (g.SetBobnetAgentIndex g.bobnetAgentIndex) arrival = .ok none :=
    (selectLink_isolated (by rw [hidx]; exact (hv _).2 ha) (by rw [hidx, hadj]; exact hiso)
      (fun x hx => (hv x).2 (hvalid x hx))).2.2
  refine ⟨h1, ⟨_, rfl⟩, h2, h3, ?_, hlinks, hadj⟩
  simp only [playRound, h3']

theorem isolated_agent_round_witness :
    getBobnetPath (some isolatedAgent) [2] = .ok (.ok []) ∧
      (∃ msg, getLinkToCutFromPath isolatedAgent.links [] = .error msg) ∧
      (∃ msg, getLinkToCutFromNode (getAt isolatedAgent.nodes isolatedAgent.bobnetAgentIndex) =
        .error msg) ∧
      selectLink isolatedAgent [2] = .ok none ∧
      playRound isolatedAgent isolatedAgent.bobnetAgentIndex [2] =
        .ok (isolatedAgent.SetBobnetAgentIndex isolatedAgent.bobnetAgentIndex, none) ∧
      (isolatedAgent.SetBobnetAgentIndex isolatedAgent.bobnetAgentIndex).links =
        isolatedAgent.links ∧
      ∀ c, (isolatedAgent.SetBobnetAgentIndex isolatedAgent.bobnetAgentIndex).adj c =
        isolatedAgent.adj c :=
  isolated_agent_round isolatedAgent [2] (by decide) (by decide) (by decide) (by decide)
    (List.Perm.refl _)

/-! ## Termination of the search -/

theorem searchLoop_fuel_succ (g : GameMap) (s e : Int) :
    ∀ (fuel : Nat) (parent queue r : List Int),
      searchLoop g s e fuel parent queue = .ok r →
      searchLoop g s e (fuel + 1) parent queue = .ok r
  | 0, parent, queue, r, h => by simp [searchLoop] at h
  | fuel + 1, parent, queue, r, h => by
    unfold searchLoop at h ⊢
    cases queue with
    | nil => simp at h
    | cons cur rest =>
      simp only at h ⊢
      cases hn : getAt g.nodes cur with
      | none => simp [hn] at h
      | some node =>
        simp only [hn] at h ⊢
        cases hsc : scanLinks s cur node.links (parent, rest) with
        | error err => simp [hsc] at h
        | ok st =>
          obtain ⟨parent', queue'⟩ := st
          simp only [hsc] at h ⊢
          by_cases hq : queue'.length = 0
          · simp only [hq, if_true] at h ⊢
            exact h
          · simp only [hq, if_false] at h ⊢
            cases hp : getAt parent' e with
            | none => simp [hp] at h
            | some p =>
              simp only [hp] at h ⊢
              by_cases hp1 : p ≠ -1
              · rw [if_pos hp1] at h ⊢
                exact h
              · rw [if_neg hp1] at h ⊢
                exact searchLoop_fuel_succ g s e fuel parent' queue' r h

theorem searchLoop_fuel_le (g : GameMap) (s e : Int) {fuel fuel' : Nat} (hle : fuel ≤ fuel')
    {parent queue r : List Int} (h : searchLoop g s e fuel parent queue = .ok r) :
    searchLoop g s e fuel' parent queue = .ok r := by
  induction fuel', hle using Nat.le_induction with
  | base => exact h
  | succ n _ ih => exact searchLoop_fuel_succ g s e n parent queue r ih

theorem buildPath_fuel_succ (parent : List Int) :
    ∀ (fuel : Nat) (v : Int) (acc r : List Int),
      buildPath parent fuel v acc = .ok r → buildPath parent (fuel + 1) v acc = .ok r
  | 0, v, acc, r, h => by simp [buildPath] at h
  | fuel + 1, v, acc, r, h => by
    unfold buildPath at h ⊢
    cases hp : getAt parent v with
    | none => simp [hp] at h
    | some p =>
      simp only [hp] at h ⊢
      by_cases hp1 : p ≠ -1
      · rw [if_pos hp1] at h ⊢
        exact buildPath_fuel_succ parent fuel p (v :: acc) r h
      · rw [if_neg hp1] at h ⊢
        exact h

theorem buildPath_fuel_le (parent : List Int) {fuel fuel' : Nat} (hle : fuel ≤ fuel')
    {v : Int} {acc r : List Int} (h : buildPath parent fuel v acc = .ok r) :
    buildPath parent fuel' v acc = .ok r := by
  induction fuel', hle using Nat.le_induction with
  | base => exact h
  | succ n _ ih => exact buildPath_fuel_succ parent n v acc r ih

/-- The backward walk follows parent entries: each node of the result is the
parent entry of the next one, up to a node whose own entry is `-1`. -/
theorem buildPath_chain (parent : List Int) :
    ∀ (fuel : Nat) (v : Int) (acc r : List Int),
      buildPath parent fuel v acc = .ok r →
      List.Chain' (fun u w => getAt parent w = some u) (v :: acc) →
      ∃ c, getAt parent c = some (-1) ∧
        List.Chain' (fun u w => getAt parent w = some u) (c :: r) ∧
        (r = [] → c = v)
  | 0, v, acc, r, h, _ => by simp [buildPath] at h
  | fuel + 1, v, acc, r, h, hc => by
    unfold buildPath at h
    cases hp : getAt parent v with
    | none => simp [hp] at h
    | some p =>
      simp only [hp] at h
      by_cases hp1 : p ≠ -1
      · rw [if_pos hp1] at h
        obtain ⟨c, h1, h2, _⟩ :=
          buildPath_chain parent fuel p (v :: acc) r h (List.Chain'.cons hp hc)
        refine ⟨c, h1, h2, ?_⟩
        intro hr
        subst hr
        exfalso
        have : ∀ (fuel : Nat) (u : Int) (acc : List Int),
            acc ≠ [] → buildPath parent fuel u acc ≠ .ok [] := by
          intro fuel
          induction fuel with
          | zero => intro u acc _ hh; simp [buildPath] at hh
          | succ n ih =>
            intro u acc hacc hh
            unfold buildPath at hh
            cases hq : getAt parent u with
            | none => simp [hq] at hh
            | some q =>
              simp only [hq] at hh
              by_cases hq1 : q ≠ -1
              · rw [if_pos hq1] at hh
                exact ih q (u :: acc) (by simp) hh
              · rw [if_neg hq1] at hh
                cases hh
                exact hacc rfl
        exact this fuel p (v :: acc) (by simp) h
      · rw [if_neg hp1] at h
        cases h
        have hp2 : p = -1 := by
          by_contra hh
          exact hp1 hh
        subst hp2
        refine ⟨v, hp, hc, fun _ => rfl⟩

/-- What the loop over the links of `cur` does to the queue and the parent
table: it appends distinct nodes other than `s` whose parent entry was `-1`
and is now `cur`, and leaves every entry that was set as it was. -/
theorem scanLinks_enqueues {s cur : Int} (hcur : 0 ≤ cur) :
    ∀ (links parent queue parent' queue' : List Int),
      scanLinks s cur links (parent, queue) = .ok (parent', queue') →
      ∃ new, queue' = queue ++ new ∧ new.Nodup ∧
        (∀ x ∈ new, x ≠ s ∧ getAt parent x = some (-1) ∧ getAt parent' x = some cur) ∧
        ∀ x p, getAt parent x = some p → p ≠ -1 → getAt parent' x = some p
  | [], parent, queue, parent', queue', h => by
    simp only [scanLinks, Except.ok.injEq, Prod.mk.injEq] at h
    obtain ⟨rfl, rfl⟩ := h
    exact ⟨[], by simp, List.nodup_nil, by simp, fun _ _ hx _ => hx⟩
  | l :: rest, parent, queue, parent', queue', h => by
    unfold scanLinks at h
    by_cases hls : l ≠ s
    · rw [if_pos hls] at h
      cases hp : getAt parent l with
      | none => simp [hp] at h
      | some p =>
        simp only [hp] at h
        by_cases hp1 : p = -1
        · rw [if_pos hp1] at h
          subst hp1
          obtain ⟨new, h1, h2, h3, h4⟩ :=
            scanLinks_enqueues hcur rest _ _ parent' queue' h
          have hc : cur ≠ -1 := by omega
          have hself : getAt (setAt parent l cur) l = some cur := getAt_setAt_self cur hp
          refine ⟨l :: new, by rw [h1]; simp, ?_, ?_, ?_⟩
          · refine List.nodup_cons.2 ⟨?_, h2⟩
            intro hl
            have := (h3 l hl).2.1
            rw [hself] at this
            cases this
            exact hc rfl
          · intro x hx
            rcases List.mem_cons.1 hx with hx | hx
            · subst hx
              exact ⟨hls, hp, h4 x cur hself hc⟩
            · obtain ⟨a1, a2, a3⟩ := h3 x hx
              refine ⟨a1, ?_, a3⟩
              have hxl : x ≠ l := by
                intro e
                rw [e, hself] at a2
                cases a2
                exact hc rfl
              rw [← getAt_setAt_ne parent cur hxl]
              exact a2
          · intro x p hx hp1
            have hxl : x ≠ l := by
              intro e
              rw [e, hp] at hx
              cases hx
              exact hp1 rfl
            exact h4 x p (by rw [getAt_setAt_ne parent cur hxl]; exact hx) hp1
        · rw [if_neg hp1] at h
          exact scanLinks_enqueues hcur rest parent queue parent' queue' h
    · rw [if_neg hls] at h
      exact scanLinks_enqueues hcur rest parent queue parent' queue' h

/-- C19: on a graph whose adjacency entries are valid indices, for valid
`start` and `end`, `getShortestPath` terminates with a result.  A node is
enqueued only when its parent entry changes from `-1` (so at most once, and
never the start node); the search loop breaks within `nodeCount` iterations
without reading an empty queue; and when the end node was discovered, the
backward walk over parent entries from `end` reaches the start node, whose
entry is `-1`, in fewer than `nodeCount` steps. -/
theorem getShortestPath_terminates (g : GameMap) (s e : Int)
    (hadj : ∀ n ∈ g.nodes, ∀ l ∈ n.links, ValidIndex g l)
    (hs : ValidIndex g s) (he : ValidIndex g e) :
    (∃ p, getShortestPath g s e = .ok p) ∧
      (∀ (cur : Int) (links parent queue parent' queue' : List Int), 0 ≤ cur →
        scanLinks s cur links (parent, queue) = .ok (parent', queue') →
        ∃ new, queue' = queue ++ new ∧ new.Nodup ∧
          (∀ x ∈ new, x ≠ s ∧ getAt parent x = some (-1) ∧ getAt parent' x = some cur) ∧
          ∀ x p, getAt parent x = some p → p ≠ -1 → getAt parent' x = some p) ∧
      ∃ parent,
        (∀ fuel, g.nodes.length ≤ fuel →
          searchLoop g s e fuel (List.replicate g.nodes.length (-1)) [s] = .ok parent) ∧
        getAt parent s = some (-1) ∧
        ∀ p, getAt parent e = some p → p ≠ -1 →
          ∃ path,
            (∀ fuel, g.nodes.length ≤ fuel → buildPath parent fuel e [] = .ok path) ∧
            path.length < g.nodes.length ∧ (s :: path).getLast? = some e ∧
            ∀ (k : Nat) (hk : k + 1 < (s :: path).length),
              getAt parent (s :: path)[k + 1] = some (s :: path)[k] := by
  obtain ⟨parent, queue, d, h1, h2, _⟩ :=
    searchLoop_inv (s := s) hadj he g.nodes.length (List.replicate g.nodes.length (-1))
      [s] (fun _ => 0) (by simp) (HeadInv.init hs)
      (by rw [List.count_replicate_self, List.length_singleton])
  have hloop : ∀ fuel, g.nodes.length ≤ fuel →
      searchLoop g s e fuel (List.replicate g.nodes.length (-1)) [s] = .ok parent :=
    fun fuel hf => searchLoop_fuel_le g s e hf h1
  have hwalk : ∀ p, getAt parent e = some p → p ≠ -1 →
      ∃ path,
        (∀ fuel, g.nodes.length ≤ fuel → buildPath parent fuel e [] = .ok path) ∧
        path.length < g.nodes.length ∧ (s :: path).getLast? = some e ∧
        ∀ (k : Nat) (hk : k + 1 < (s :: path).length),
          getAt parent (s :: path)[k + 1] = some (s :: path)[k] := by
    intro p hp hp1
    have hev : Visited parent s e := Or.inr ⟨p, hp, hp1⟩
    have hde : d e < g.nodes.length := by
      have a1 := h2.depth_bound e hev
      have a2 := count_pos_of_getAt h2.start_unset
      omega
    obtain ⟨path, hb1, _, hb3, hb4⟩ :=
      buildPath_inv h2.toSearchInv (d e) g.nodes.length e [] hev rfl hde trivial
    obtain ⟨c, hc1, hc2, hc3⟩ :=
      buildPath_chain parent g.nodes.length e [] path hb1 (List.chain'_singleton _)
    have hcs : c = s := by
      cases path with
      | nil =>
        have := hc3 rfl
        rw [this, hp] at hc1
        cases hc1
        exact absurd rfl hp1
      | cons a rest =>
        have ha : getAt parent a = some c := (List.chain'_cons.1 hc2).1
        have hc0 : 0 ≤ c := (getAt_range hc1).1
        rcases (h2.par a c ha (by omega)).2.1 with hv | ⟨q, hq, hq1⟩
        · exact hv
        · rw [hc1] at hq
          cases hq
          exact absurd rfl hq1
    subst hcs
    refine ⟨path, fun fuel hf => buildPath_fuel_le parent hf hb1, ?_, ?_, ?_⟩
    · rw [hb3]
      simpa using hde
    · rw [hb4]
      rfl
    · intro k hk
      exact List.chain'_iff_get.1 hc2 k (by simpa using hk)
  refine ⟨?_, fun cur links parent queue parent' queue' hcur h =>
    scanLinks_enqueues hcur links parent queue parent' queue' h,
    parent, hloop, h2.start_unset, hwalk⟩
  by_cases hse : s = e
  · subst hse
    exact ⟨[], getShortestPath_self g s⟩
  · obtain ⟨p, hp⟩ := getAt_of_range he.1 (by rw [h2.len]; exact he.2)
    unfold getShortestPath
    simp only [if_neg hse, hloop _ (Nat.le_succ _), hp]
    by_cases hp1 : p = -1
    · rw [if_pos hp1]
      exact ⟨[], rfl⟩
    · rw [if_neg hp1]
      obtain ⟨path, hb, _⟩ := hwalk p hp hp1
      simp only [hb _ (Nat.le_succ _)]
      exact ⟨s :: path, rfl⟩

theorem getShortestPath_terminates_witness :
    (∃ p, getShortestPath scenarioA 0 3 = .ok p) ∧
      (∀ (cur : Int) (links parent queue parent' queue' : List Int), 0 ≤ cur →
        scanLinks 0 cur links (parent, queue) = .ok (parent', queue') →
        ∃ new, queue' = queue ++ new ∧ new.Nodup ∧
          (∀ x ∈ new, x ≠ 0 ∧ getAt parent x = some (-1) ∧ getAt parent' x = some cur) ∧
          ∀ x p, getAt parent x = some p → p ≠ -1 → getAt parent' x = some p) ∧
      ∃ parent,
        (∀ fuel, scenarioA.nodes.length ≤ fuel →
          searchLoop scenarioA 0 3 fuel (List.replicate scenarioA.nodes.length (-1)) [0] =
            .ok parent) ∧
        getAt parent 0 = some (-1) ∧
        ∀ p, getAt parent 3 = some p → p ≠ -1 →
          ∃ path,
            (∀ fuel, scenarioA.nodes.length ≤ fuel → buildPath parent fuel 3 [] = .ok path) ∧
            path.length < scenarioA.nodes.length ∧ ((0 : Int) :: path).getLast? = some 3 ∧
            ∀ (k : Nat) (hk : k + 1 < ((0 : Int) :: path).length),
              getAt parent ((0 : Int) :: path)[k + 1] = some ((0 : Int) :: path)[k] :=
  getShortestPath_terminates scenarioA 0 3 (by decide) (by decide) (by decide)

/-! ## The round on a consistent graph -/

theorem wellFormed_iff {g : GameMap} :
    WellFormed g ↔ ∀ k n, getAt g.nodes k = some n →
      n.index = k ∧ ∀ l ∈ n.links, ValidIndex g l := by
  unfold WellFormed
  constructor
  · rintro ⟨h1, h2⟩ k n hk
    refine ⟨?_, h2 n (mem_of_getAt hk)⟩
    have hr := getAt_range hk
    have hlt : k.toNat < g.nodes.length := by omega
    have hcast : ((k.toNat : Nat) : Int) = k := Int.toNat_of_nonneg hr.1
    have hg := getAt_fin g.nodes ⟨k.toNat, hlt⟩
    have hi := h1 ⟨k.toNat, hlt⟩
    simp only [hcast] at hg hi
    rw [hk] at hg
    cases hg
    exact hi
  · intro h
    refine ⟨fun i => (h _ _ (getAt_fin g.nodes i)).1, ?_⟩
    intro n hn
    obtain ⟨i, hi⟩ := List.mem_iff_get.1 hn
    exact (h _ n (hi ▸ getAt_fin g.nodes i)).2

theorem WellFormed.setAgent {g : GameMap} (h : WellFormed g) (index : Int) :
    WellFormed (g.SetBobnetAgentIndex index) := by
  rw [wellFormed_iff] at h ⊢
  intro k n hk
  rw [getAt_SetBobnetAgentIndex] at hk
  cases hg : getAt g.nodes k with
  | none => rw [hg] at hk; cases hk
  | some n0 =>
    obtain ⟨h1, h2⟩ := h k n0 hg
    have hv : ∀ l, ValidIndex (g.SetBobnetAgentIndex index) l ↔ ValidIndex g l := by
      intro l
      unfold ValidIndex
      rw [(SetBobnetAgentIndex_same g index).1]
    rw [hg] at hk
    simp only [Option.map_some', Option.some.injEq] at hk
    have hidx : n.index = n0.index ∧ n.links = n0.links := by
      rw [← hk]
      split
      · exact ⟨rfl, rfl⟩
      · split <;> exact ⟨rfl, rfl⟩
    rw [hidx.1, hidx.2]
    exact ⟨h1, fun l hl => (hv l).2 (h2 l hl)⟩

/-- The nearest-exit search on a well-formed graph returns the empty path or a
walk from the agent to an exit other than the agent's node. -/
theorem getBobnetPath_cases {g : GameMap} {arrival : List Int} (hwf : WellFormed g)
    (hagent : ValidIndex g g.bobnetAgentIndex) (hexits : ∀ x ∈ g.exits, ValidIndex g x)
    (harr : arrival.Perm g.exits) :
    ∃ p, getBobnetPath (some g) arrival = .ok (.ok p) ∧
      (p = [] ∨ ∃ x ∈ g.exits, x ≠ g.bobnetAgentIndex ∧ WalkFromTo g g.bobnetAgentIndex x p) := by
  have hvalid : ∀ x ∈ arrival, ValidIndex g x := fun x hx => hexits x (harr.mem_iff.1 hx)
  have hall : ∀ x ∈ arrival, ∃ p, getShortestPath g g.bobnetAgentIndex x = .ok p := by
    intro x hx
    by_cases hxa : g.bobnetAgentIndex = x
    · exact ⟨[], hxa ▸ getShortestPath_self g _⟩
    · obtain ⟨p, hp, _⟩ := getShortestPath_spec hwf hagent (hvalid x hx) hxa
      exact ⟨p, hp⟩
  obtain ⟨paths, hpaths, hfrom, _⟩ := exitPaths_ok arrival hall
  refine ⟨(collectPaths none paths).getD [], by simp only [getBobnetPath, hpaths], ?_⟩
  by_cases hnil : (collectPaths none paths).getD [] = []
  · exact Or.inl hnil
  · obtain ⟨hmem, _⟩ := (collectPaths_result paths).2 hnil
    obtain ⟨x, hx, hxq⟩ := hfrom _ hmem
    have hxa : g.bobnetAgentIndex ≠ x := by
      intro e
      rw [← e, getShortestPath_self] at hxq
      exact hnil (Except.ok.inj hxq).symm
    refine Or.inr ⟨x, harr.mem_iff.1 hx, Ne.symm hxa, ?_⟩
    obtain ⟨p', hp', h | h⟩ := getShortestPath_spec hwf hagent (hvalid x hx) hxa
    · rw [hxq] at hp'
      cases hp'
      exact absurd h.1 hnil
    · rw [hxq] at hp'
      cases hp'
      exact h.1

/-- The last two nodes of a walk between distinct nodes are the first pair the
primary policy examines, and they are joined by an adjacency entry. -/
theorem walk_last_pair {g : GameMap} {a x : Int} {p : List Int} (h : WalkFromTo g a x p)
    (hax : a ≠ x) : ∃ y, examinedPair p 0 = some (x, y) ∧ x ∈ g.adj y := by
  obtain ⟨hhead, hlast, hw⟩ := h
  have hlen : 2 ≤ p.length := by
    cases p with
    | nil => simp at hhead
    | cons b rest =>
      cases rest with
      | nil =>
        simp only [List.head?_cons, Option.some.injEq] at hhead
        simp only [List.getLast?_singleton, Option.some.injEq] at hlast
        exact absurd (hhead.symm.trans hlast) hax
      | cons c rest => simp
  have hx : p[p.length - 1]? = some x := by
    rw [← List.getLast?_eq_getElem?]
    exact hlast
  have hy : p[p.length - 2]? = some p[p.length - 2] := List.getElem?_eq_getElem (by omega)
  refine ⟨p[p.length - 2], examinedPair_zero (by omega) hx hy, ?_⟩
  have hstep := isWalk_get hw (p.length - 2) (by omega)
  have hidx : p.length - 2 + 1 = p.length - 1 := by omega
  have hx2 : p[p.length - 2 + 1]? = some x := by rw [hidx]; exact hx
  have hx3 := (List.getElem?_eq_some.1 hx2).2
  rw [hx3] at hstep
  exact hstep

theorem getLinkToCutFromPath_first_pair {links : List Link} {p : List Int} {x y : Int}
    {l : Link} (hp : examinedPair p 0 = some (x, y))
    (hf : links.find? (fun m => m.joins x y) = some l) :
    getLinkToCutFromPath links p = .ok l := by
  have hlen := examinedPair_length hp
  have ha : p[p.length - 1]? = some p[p.length - 1] := List.getElem?_eq_getElem (by omega)
  have hb : p[p.length - 2]? = some p[p.length - 2] := List.getElem?_eq_getElem (by omega)
  have h0 := examinedPair_zero (by omega) ha hb
  rw [hp] at h0
  simp only [Option.some.injEq, Prod.mk.injEq] at h0
  obtain ⟨rfl, rfl⟩ := h0
  unfold getLinkToCutFromPath
  rw [if_neg (by omega)]
  obtain ⟨f, hfuel⟩ : ∃ f, p.length = f + 1 := ⟨p.length - 1, by omega⟩
  rw [show cutLoop links p.length p = cutLoop links (f + 1) p by rw [hfuel]]
  unfold cutLoop
  simp only [show p.length > 1 by omega, if_true, ha, hb, hf]

/-- On a consistent well-formed graph the first pair of a non-empty nearest-exit
path has an entry in the edge list, which the primary policy returns. -/
theorem primary_policy_link {g : GameMap} {arrival : List Int} (hwf : WellFormed g)
    (hc : Consistent g) (hagent : ValidIndex g g.bobnetAgentIndex)
    (hexits : ∀ x ∈ g.exits, ValidIndex g x) (harr : arrival.Perm g.exits) :
    ∃ p, getBobnetPath (some g) arrival = .ok (.ok p) ∧
      (p ≠ [] → ∃ x y l, examinedPair p 0 = some (x, y) ∧ x ∈ g.exits ∧
        x ∈ g.adj y ∧ y ∈ g.adj x ∧
        getLinkToCutFromPath g.links p = .ok l ∧ l ∈ g.links ∧ l.connects x y ∧
        g.links.find? (fun m => decide (m.connects x y)) = some l) := by
  obtain ⟨p, hp, hcase⟩ := getBobnetPath_cases hwf hagent hexits harr
  refine ⟨p, hp, fun hne => ?_⟩
  obtain ⟨x, hx, hxa, hwalk⟩ := hcase.resolve_left hne
  obtain ⟨y, hpair, hadj⟩ := walk_last_pair hwalk (Ne.symm hxa)
  have hy : ValidIndex g y := by
    by_contra hny
    rw [adj_of_not_valid hny] at hadj
    simp at hadj
  obtain ⟨s1, s2⟩ := synchronized_iff.1 hc.2.2 y hy x (hexits x hx)
  obtain ⟨m, hm, hmc⟩ := s2.1 hadj
  have hmc' : m.connects x y := by
    unfold Link.connects at hmc ⊢
    omega
  cases hf : g.links.find? (fun m => decide (m.connects x y)) with
  | none =>
    have := List.find?_eq_none.1 hf m hm
    simp only [decide_eq_true_eq] at this
    exact absurd hmc' this
  | some l =>
    have hl : l ∈ g.links := List.mem_of_find?_eq_some hf
    have hlc : l.connects x y := by
      have := @List.find?_some _ (fun m => decide (m.connects x y)) l g.links hf
      simpa using this
    refine ⟨x, y, l, hpair, hx, hadj, s1.1 hadj, ?_, hl, hlc, hf⟩
    refine getLinkToCutFromPath_first_pair hpair ?_
    rw [find?_joins_eq hc.1.1, hf]

/-- C20: on a consistent graph (well-formed, with valid exits) with a valid
agent index, whenever `getBobnetPath` returns a non-empty path `p` of `n`
nodes, in whatever order the results arrive, `getLinkToCutFromPath` succeeds
on its first pair without retreat: it returns the first entry of the current
edge list connecting `{p[n-2], p[n-1]}`, where `p[n-1]` is an exit node. -/
theorem primary_policy_first_pair (g : GameMap) (arrival : List Int) (hwf : WellFormed g)
    (hc : Consistent g) (hagent : ValidIndex g g.bobnetAgentIndex)
    (hexits : ∀ x ∈ g.exits, ValidIndex g x) (harr : arrival.Perm g.exits) :
    ∃ p, getBobnetPath (some g) arrival = .ok (.ok p) ∧
      (p ≠ [] → ∃ x y l, examinedPair p 0 = some (x, y) ∧ x ∈ g.exits ∧
        getLinkToCutFromPath g.links p = .ok l ∧ l ∈ g.links ∧ l.connects x y ∧
        g.links.find? (fun m => decide (m.connects x y)) = some l) := by
  obtain ⟨p, hp, h⟩ := primary_policy_link hwf hc hagent hexits harr
  refine ⟨p, hp, fun hne => ?_⟩
  obtain ⟨x, y, l, h1, h2, _, _, h3, h4, h5, h6⟩ := h hne
  exact ⟨x, y, l, h1, h2, h3, h4, h5, h6⟩

theorem primary_policy_first_pair_witness :
    ∃ p, getBobnetPath (some agentOnExit) [2, 0] = .ok (.ok p) ∧
      (p ≠ [] → ∃ x y l, examinedPair p 0 = some (x, y) ∧ x ∈ agentOnExit.exits ∧
        getLinkToCutFromPath agentOnExit.links p = .ok l ∧ l ∈ agentOnExit.links ∧
        l.connects x y ∧
        agentOnExit.links.find? (fun m => decide (m.connects x y)) = some l) :=
  primary_policy_first_pair agentOnExit [2, 0] (by decide) (by decide) (by decide) (by decide)
    (List.Perm.swap 0 2 [])

theorem removeLink_lengths {g : GameMap} {a b : Int} (hab : a ≠ b) (h1 : b ∈ g.adj a)
    (h2 : a ∈ g.adj b) (h3 : ∃ m ∈ g.links, m.joins a b = true) :
    (g.removeLink ⟨a, b⟩).links.length + 1 = g.links.length ∧
      ((g.removeLink ⟨a, b⟩).adj a).length + 1 = (g.adj a).length ∧
      ((g.removeLink ⟨a, b⟩).adj b).length + 1 = (g.adj b).length ∧
      ∀ c, c ≠ a → c ≠ b → (g.removeLink ⟨a, b⟩).adj c = g.adj c := by
  obtain ⟨m, hm, hmj⟩ := h3
  refine ⟨?_, ?_, ?_, fun c ha hb => adj_removeLink_other g ⟨a, b⟩ c ha hb⟩
  · rw [(GameMap.removeLink_links_perm g ⟨a, b⟩).length_eq,
      List.length_eraseP_of_mem hm hmj]
    have := List.length_pos_of_mem hm
    omega
  · have hp := adj_removeLink_perm g ⟨a, b⟩ a
    simp only [if_neg hab, if_true] at hp
    rw [hp.length_eq, List.length_erase_of_mem h1]
    have := List.length_pos_of_mem h1
    omega
  · have hp := adj_removeLink_perm g ⟨a, b⟩ b
    simp only [if_true, if_neg (Ne.symm hab)] at hp
    rw [hp.length_eq, List.length_erase_of_mem h2]
    have := List.length_pos_of_mem h2
    omega

/-- On a consistent well-formed graph the round selects no link or a link that
is an edge of the graph in both representations. -/
theorem selectLink_consistent {g : GameMap} {arrival : List Int} (hwf : WellFormed g)
    (hc : Consistent g) (hagent : ValidIndex g g.bobnetAgentIndex)
    (hexits : ∀ x ∈ g.exits, ValidIndex g x) (harr : arrival.Perm g.exits) :
    ∃ r, selectLink g arrival = .ok r ∧
      ∀ l, r = some l → l.node1 ≠ l.node2 ∧ l.node2 ∈ g.adj l.node1 ∧
        l.node1 ∈ g.adj l.node2 ∧ ∃ m ∈ g.links, m.joins l.node1 l.node2 = true := by
  obtain ⟨p, hp, h⟩ := primary_policy_link hwf hc hagent hexits harr
  by_cases hne : p = []
  · subst hne
    obtain ⟨n, hn⟩ := getAt_of_range hagent.1 hagent.2
    obtain ⟨hidx, hval⟩ := wellFormed_iff.1 hwf _ n hn
    have hadj : g.adj g.bobnetAgentIndex = n.links := adj_eq_of_getAt hn
    cases hl : n.links with
    | nil =>
      refine ⟨none, ?_, fun l hh => by cases hh⟩
      unfold selectLink
      rw [hp]
      simp only [getLinkToCutFromPath, List.length_nil, Nat.ofNat_pos, if_true, hn,
        getLinkToCutFromNode, hl]
    | cons first rest =>
      refine ⟨some ⟨n.index, first⟩, ?_, ?_⟩
      · unfold selectLink
        rw [hp]
        simp only [getLinkToCutFromPath, List.length_nil, Nat.ofNat_pos, if_true, hn,
          getLinkToCutFromNode, hl]
      · intro l hh
        cases hh
        have hfirst : first ∈ g.adj g.bobnetAgentIndex := by
          rw [hadj, hl]
          exact List.mem_cons_self _ _
        have hfv : ValidIndex g first := hval first (by rw [hl]; exact List.mem_cons_self _ _)
        obtain ⟨s1, s2⟩ := synchronized_iff.1 hc.2.2 _ hagent first hfv
        obtain ⟨m, hm, hmc⟩ := s2.1 hfirst
        simp only [hidx]
        refine ⟨?_, hfirst, s1.1 hfirst, m, hm,
          (Link.joins_iff_connects (hc.1.1 m hm) _ _).2 hmc⟩
        intro e
        exact noSelfLoops_adj hc.1 first (by rw [e] at hfirst; exact hfirst)
  · obtain ⟨x, y, l, _, _, hxy, hyx, hcut, hl, hlc, _⟩ := h hne
    refine ⟨some l, ?_, ?_⟩
    · unfold selectLink
      rw [hp]
      simp only [hcut]
    · intro l' hh
      cases hh
      refine ⟨hc.1.1 l hl, ?_, ?_, l, hl, by simp [Link.joins]⟩
      · rcases hlc with ⟨e1, e2⟩ | ⟨e1, e2⟩
        · rw [e1, e2]; exact hyx
        · rw [e1, e2]; exact hxy
      · rcases hlc with ⟨e1, e2⟩ | ⟨e1, e2⟩
        · rw [e1, e2]; exact hxy
        · rw [e1, e2]; exact hyx

/-- The link the round selects, in terms of the two policies: the result of the
primary policy on the nearest-exit path, else that of the fallback on the
agent's node, else none. -/
theorem selectLink_eq_policies {g : GameMap} {arrival p : List Int} {n : Node}
    (hp : getBobnetPath (some g) arrival = .ok (.ok p))
    (hn : getAt g.nodes g.bobnetAgentIndex = some n) :
    selectLink g arrival =
      .ok (match getLinkToCutFromPath g.links p with
        | .ok l => some l
        | .error _ =>
          match getLinkToCutFromNode (some n) with
          | .ok l => some l
          | .error _ => none) := by
  unfold selectLink
  rw [hp]
  simp only [hn]
  cases getLinkToCutFromPath g.links p with
  | ok l => rfl
  | error m1 =>
    simp only
    cases getLinkToCutFromNode (some n) <;> rfl

/-- C14: on a consistent graph (well-formed, with valid exits), one round for
a valid agent index, in whatever order the search results arrive, ends
without failure.  When a link is selected, by the primary policy on the
nearest-exit path or, that failing, by the fallback on the agent's node, the
round returns the map with that link removed and prints its endpoints, and
exactly one edge is gone: the edge list is one entry shorter, the adjacency
list of each endpoint is one entry shorter and the other adjacency lists are
unchanged.  When both policies fail the round returns the map as it is,
prints nothing, and the edge list and all adjacency lists are unchanged. -/
theorem playRound_removes_one_edge (g : GameMap) (i : Int) (arrival : List Int)
    (hwf : WellFormed g) (hc : Consistent g) (hi : ValidIndex g i)
    (hexits : ∀ x ∈ g.exits, ValidIndex g x) (harr : arrival.Perm g.exits) :
    ∃ p, getBobnetPath (some (g.SetBobnetAgentIndex i)) arrival = .ok (.ok p) ∧
      ((∃ m1, getLinkToCutFromPath (g.SetBobnetAgentIndex i).links p = .error m1) →
        (∃ m2, getLinkToCutFromNode
          (getAt (g.SetBobnetAgentIndex i).nodes (g.SetBobnetAgentIndex i).bobnetAgentIndex) =
            .error m2) →
        selectLink (g.SetBobnetAgentIndex i) arrival = .ok none ∧
        playRound g i arrival = .ok (g.SetBobnetAgentIndex i, none) ∧
        (g.SetBobnetAgentIndex i).links = g.links ∧
        ∀ c, (g.SetBobnetAgentIndex i).adj c = g.adj c) ∧
      ∀ l,
        (getLinkToCutFromPath (g.SetBobnetAgentIndex i).links p = .ok l ∨
          ((∃ m1, getLinkToCutFromPath (g.SetBobnetAgentIndex i).links p = .error m1) ∧
            getLinkToCutFromNode
              (getAt (g.SetBobnetAgentIndex i).nodes
                (g.SetBobnetAgentIndex i).bobnetAgentIndex) = .ok l)) →
        selectLink (g.SetBobnetAgentIndex i) arrival = .ok (some l) ∧
        playRound g i arrival =
          .ok ((g.SetBobnetAgentIndex i).removeLink l, some (l.node1, l.node2)) ∧
        l.node1 ≠ l.node2 ∧
        ((g.SetBobnetAgentIndex i).removeLink l).links.length + 1 = g.links.length ∧
        (((g.SetBobnetAgentIndex i).removeLink l).adj l.node1).length + 1 =
          (g.adj l.node1).length ∧
        (((g.SetBobnetAgentIndex i).removeLink l).adj l.node2).length + 1 =
          (g.adj l.node2).length ∧
        ∀ c, c ≠ l.node1 → c ≠ l.node2 →
          ((g.SetBobnetAgentIndex i).removeLink l).adj c = g.adj c := by
  obtain ⟨hlen, hadj, hlinks, hex⟩ := SetBobnetAgentIndex_same g i
  have hidx : (g.SetBobnetAgentIndex i).bobnetAgentIndex = i := by
    rw [SetBobnetAgentIndex_index]
    exact if_pos hi
  have hv : ∀ x, ValidIndex (g.SetBobnetAgentIndex i) x ↔ ValidIndex g x := by
    intro x
    unfold ValidIndex
    rw [hlen]
  have hwf1 : WellFormed (g.SetBobnetAgentIndex i) := hwf.setAgent i
  have hc1 : Consistent (g.SetBobnetAgentIndex i) := hc.of_same hlen hadj hlinks
  have ha1 : ValidIndex (g.SetBobnetAgentIndex i) (g.SetBobnetAgentIndex i).bobnetAgentIndex := by
    rw [hidx]
    exact (hv i).2 hi
  have hex1 : ∀ x ∈ (g.SetBobnetAgentIndex i).exits, ValidIndex (g.SetBobnetAgentIndex i) x :=
    fun x hx => (hv x).2 (hexits x (hex ▸ hx))
  have harr1 : arrival.Perm (g.SetBobnetAgentIndex i).exits := hex.symm ▸ harr
  obtain ⟨p, hp, _⟩ := getBobnetPath_cases hwf1 ha1 hex1 harr1
  obtain ⟨n, hn⟩ := getAt_of_range ha1.1 ha1.2
  have hsel := selectLink_eq_policies hp hn
  obtain ⟨r, hr, hrl⟩ := selectLink_consistent hwf1 hc1 ha1 hex1 harr1
  refine ⟨p, hp, ?_, ?_⟩
  · rintro ⟨m1, h1⟩ ⟨m2, h2⟩
    rw [hn] at h2
    rw [h1, h2] at hsel
    refine ⟨hsel, ?_, hlinks, hadj⟩
    simp only [playRound, hsel]
  · intro l hl
    have hsome : selectLink (g.SetBobnetAgentIndex i) arrival = .ok (some l) := by
      rcases hl with h1 | ⟨⟨m1, h1⟩, h2⟩
      · rw [h1] at hsel
        exact hsel
      · rw [hn] at h2
        rw [h1, h2] at hsel
        exact hsel
    have hrsome : r = some l := by
      rw [hr] at hsome
      exact Except.ok.inj hsome
    obtain ⟨e1, e2, e3, e4⟩ := hrl l hrsome
    obtain ⟨r1, r2, r3, r4⟩ := removeLink_lengths e1 e2 e3 e4
    refine ⟨hsome, ?_, e1, ?_, ?_, ?_, ?_⟩
    · simp only [playRound, hsome, cutLink]
    · rw [← hlinks]; exact r1
    · rw [← hadj]; exact r2
    · rw [← hadj]; exact r3
    · intro c hc1' hc2'
      rw [← hadj]
      exact r4 c hc1' hc2'

theorem playRound_removes_one_edge_witness :
    getLinkToCutFromPath (scenarioA.SetBobnetAgentIndex 0).links [0, 1, 2, 3] = .ok ⟨2, 3⟩ ∧
      ∃ p, getBobnetPath (some (scenarioA.SetBobnetAgentIndex 0)) [3] = .ok (.ok p) ∧
      ((∃ m1, getLinkToCutFromPath (scenarioA.SetBobnetAgentIndex 0).links p = .error m1) →
        (∃ m2, getLinkToCutFromNode
          (getAt (scenarioA.SetBobnetAgentIndex 0).nodes
            (scenarioA.SetBobnetAgentIndex 0).bobnetAgentIndex) = .error m2) →
        selectLink (scenarioA.SetBobnetAgentIndex 0) [3] = .ok none ∧
        playRound scenarioA 0 [3] = .ok (scenarioA.SetBobnetAgentIndex 0, none) ∧
        (scenarioA.SetBobnetAgentIndex 0).links = scenarioA.links ∧
        ∀ c, (scenarioA.SetBobnetAgentIndex 0).adj c = scenarioA.adj c) ∧
      ∀ l,
        (getLinkToCutFromPath (scenarioA.SetBobnetAgentIndex 0).links p = .ok l ∨
          ((∃ m1, getLinkToCutFromPath (scenarioA.SetBobnetAgentIndex 0).links p =
              .error m1) ∧
            getLinkToCutFromNode
              (getAt (scenarioA.SetBobnetAgentIndex 0).nodes
                (scenarioA.SetBobnetAgentIndex 0).bobnetAgentIndex) = .ok l)) →
        selectLink (scenarioA.SetBobnetAgentIndex 0) [3] = .ok (some l) ∧
        playRound scenarioA 0 [3] =
          .ok ((scenarioA.SetBobnetAgentIndex 0).removeLink l, some (l.node1, l.node2)) ∧
        l.node1 ≠ l.node2 ∧
        ((scenarioA.SetBobnetAgentIndex 0).removeLink l).links.length + 1 =
          scenarioA.links.length ∧
        (((scenarioA.SetBobnetAgentIndex 0).removeLink l).adj l.node1).length + 1 =
          (scenarioA.adj l.node1).length ∧
        (((scenarioA.SetBobnetAgentIndex 0).removeLink l).adj l.node2).length + 1 =
          (scenarioA.adj l.node2).length ∧
        ∀ c, c ≠ l.node1 → c ≠ l.node2 →
          ((scenarioA.SetBobnetAgentIndex 0).removeLink l).adj c = scenarioA.adj c :=
  ⟨by decide,
    playRound_removes_one_edge scenarioA 0 [3] (by decide) (by decide) (by decide) (by decide)
      (List.Perm.refl _)⟩

end DeathFirstSearch
